import Mathlib

/-!
Shallow embedding of the SonioxSRT subtitle engine (`src/ts/src/subtitles.ts`)
and proofs about the claims of the specification.

Modelling conventions:
* JavaScript strings are modelled as `List Char` (`Str`).
* Millisecond values (JavaScript numbers) are modelled as `ℚ`.
* `undefined`/absent optional values are modelled with `Option`.
* The two worklist loops of `enforceReadability` are modelled with an explicit
  fuel argument chosen large enough (proved sufficient below), so that all
  definitions are structurally recursive and kernel-computable.
-/

set_option allowUnsafeReducibility true in
attribute [semireducible] Rat.add Rat.sub Rat.mul Rat.div Rat.inv Rat.neg Rat.ofScientific

namespace SonioxSRT

/-- JavaScript strings, modelled as lists of characters. -/
abbrev Str := List Char

/-- Whitespace predicate used by the JavaScript `trim`/`trimStart`/`trimEnd`
family on the character sets that occur in this code base. -/
def isWs (c : Char) : Bool :=
  c = ' ' || c = '\t' || c = '\n' || c = '\r' || c = '\x0b' || c = '\x0c'

/-- `String.prototype.trimStart`. -/
def trimStart (s : Str) : Str := s.dropWhile isWs

/-- `String.prototype.trimEnd`. -/
def trimEnd (s : Str) : Str := (s.reverse.dropWhile isWs).reverse

/-- `String.prototype.trim`. -/
def trim (s : Str) : Str := trimEnd (trimStart s)

/-- `SENTENCE_ENDERS` from subtitles.ts. -/
def SENTENCE_ENDERS : List Char := ['。', '｡', '.', '．', '！', '!', '？', '?']

/-- `MINOR_BREAKERS` from subtitles.ts. -/
def MINOR_BREAKERS : List Char := [',', '，', ';', '；', ':', '：', '、', '—', '–', '-', '･']

/-- `PUNCT` from subtitles.ts. -/
def PUNCT : List Char :=
  ['.', ',', '!', '?', ';', ':', '–', '—', '-', '…', '，', '；', '：', '｡', '．', '･']

/-- `containsCjk` from subtitles.ts: true when some character lies in the
Hiragana/Katakana or CJK unified/compatibility ranges. -/
def containsCjk (text : Str) : Bool :=
  text.any fun c =>
    let code := c.toNat
    (0x3040 ≤ code && code ≤ 0x30ff) ||
    (0x3400 ≤ code && code ≤ 0x4dbf) ||
    (0x4e00 ≤ code && code ≤ 0x9fff) ||
    (0xf900 ≤ code && code ≤ 0xfaff)

/-- A recognition token (`Token` from types.ts).  `text?: string` is modelled
as `Str` with the empty string standing for a missing text (the code only ever
reads `token.text ?? ""`); `speaker: string | null | undefined` is collapsed to
`Option Str` (the engine treats `null` and `undefined` speakers alike in every
place exercised by the pipeline). -/
structure Token where
  text : Str
  start_ms : Option ℚ
  end_ms : Option ℚ
  speaker : Option Str
deriving DecidableEq, Repr

/-- An assembled word (`WordToken` from subtitles.ts): `text`, `start_ms` and
`end_ms` are mandatory there; `_inner` keeps the member tokens.  The
`_prefix_space` mark is only consulted while the word is being built, so it is
tracked in the assembler state instead of on the word.  `tokensToWords` never
sets a speaker on the words it builds, hence `speaker` is `none` for all
pipeline words. -/
structure Word where
  text : Str
  start_ms : ℚ
  end_ms : ℚ
  speaker : Option Str
  inner : List Token
deriving DecidableEq, Repr

instance : Inhabited Word := ⟨⟨[], 0, 0, none, []⟩⟩

/-- A candidate subtitle segment (`SubtitleSegment` from types.ts).  The field
`end` of the source is named `end_` (`end` is reserved in Lean).  Absent
boolean fields (`sentence_break`, `prefix_ellipsis`, `suffix_ellipsis`) are
falsy in JavaScript, hence modelled as `Bool` defaulting to `false`. -/
structure Seg where
  start : ℚ
  end_ : ℚ
  speaker : Option Str
  tokens : Option (List Word)
  text : Option Str
  sentence_break : Bool
  prefix_ellipsis : Bool
  suffix_ellipsis : Bool
deriving DecidableEq, Repr

/-- `SubtitleConfig` from subtitles.ts. -/
structure SubtitleConfig where
  gap_ms : ℚ
  min_dur_ms : ℚ
  max_dur_ms : ℚ
  max_cps : ℚ
  max_cpl : ℕ
  max_lines : ℕ
  line_split_delimiters : List Str
  segment_on_sentence : Bool
  split_on_speaker : Bool
  ellipses : Bool
deriving DecidableEq, Repr

/-- The default configuration (all option defaults of the constructor). -/
def defaultConfig : SubtitleConfig :=
  ⟨1200, 1000, 7000, 17, 42, 2, [], false, false, false⟩

/-- `SubtitleEntry` from types.ts. -/
structure SubtitleEntry where
  index : ℕ
  start_ms : ℚ
  end_ms : ℚ
  lines : List Str
deriving DecidableEq, Repr

/-- `concatText` from subtitles.ts, specialised to word lists (every call site
passes `WordToken`s, whose `text` is always present). -/
def concatText (ws : List Word) : Str :=
  trim (List.flatten (ws.map Word.text))

/-- `charsForCps`: length of the text with all whitespace removed. -/
def charsForCps (text : Str) : ℕ :=
  (text.filter fun c => !isWs c).length

/-- `isSentenceBreak`: the whole (one-character) string is a sentence ender. -/
def isSentenceBreak (text : Str) : Bool :=
  match text with
  | [c] => c ∈ SENTENCE_ENDERS
  | _ => false

/-- `endsWithSentenceBreak` from subtitles.ts. -/
def endsWithSentenceBreak (text : Str) : Bool :=
  let stripped := trim text
  match stripped.getLast? with
  | some c => c ∈ SENTENCE_ENDERS
  | none => false

/-- `firstNonEmpty` from subtitles.ts, specialised to speaker strings: the
first value that is neither `undefined`/`null` nor the empty string. -/
def firstNonEmpty (values : List (Option Str)) : Option Str :=
  values.findSome? fun v =>
    match v with
    | some s => if s = [] then none else some s
    | none => none

/-- `Math.max` over a (nonempty at every call site) list, with a default. -/
def maxOf (l : List ℚ) (dflt : ℚ) : ℚ :=
  match l with
  | [] => dflt
  | x :: xs => xs.foldl max x

/-! ## Word assembler (`tokensToWords`) -/

/-- Accumulator state of `tokensToWords`: the emitted words plus the word
currently being built.  `currentPrefixSpace` records the `_prefix_space` mark
of the first token of the current run (the only mark `flush` ever reads). -/
structure AsmState where
  words : List Word
  currentTokens : List Token
  currentText : Str
  currentStart : Option ℚ
  currentEnd : Option ℚ
  currentPrefixSpace : Bool
deriving DecidableEq, Repr

/-- Initial assembler state. -/
def asmInit : AsmState := ⟨[], [], [], none, none, false⟩

/-- `flush` from `tokensToWords`. -/
def flushWord (s : AsmState) : AsmState :=
  if s.currentTokens = [] then s
  else
    let text := (if s.currentPrefixSpace then [' '] else []) ++ s.currentText
    { words := s.words ++
        [⟨text, s.currentStart.getD 0, (s.currentEnd.orElse fun _ => s.currentStart).getD 0,
          none, s.currentTokens⟩],
      currentTokens := [], currentText := [], currentStart := none, currentEnd := none,
      currentPrefixSpace := false }

/-- `addToCurrent` from `tokensToWords`: append the token, extend the text,
merge the timing extents, and possibly mark a prefix space on the (first)
token. -/
def addToCurrent (s : AsmState) (t : Token) (textPart : Str) (pfxSpace : Bool) : AsmState :=
  { s with
    currentTokens := s.currentTokens ++ [t],
    currentText := s.currentText ++ textPart,
    currentPrefixSpace := if s.currentTokens = [] then pfxSpace else s.currentPrefixSpace,
    currentStart :=
      match t.start_ms with
      | some v => some ((s.currentStart.map fun c => min c v).getD v)
      | none => s.currentStart,
    currentEnd :=
      match t.end_ms with
      | some v => some ((s.currentEnd.map fun c => max c v).getD v)
      | none => s.currentEnd }

/-- One iteration of the token loop of `tokensToWords`. -/
def asmStep (s : AsmState) (t : Token) : AsmState :=
  match t.text with
  | [] => s
  | c :: _ =>
    let rawText := t.text
    let startsSpace := isWs c
    let clean := trimStart rawText
    let isPunct := clean ≠ [] && clean.all fun ch => ch ∈ PUNCT
    let s1 :=
      if startsSpace then addToCurrent (flushWord s) t clean true
      else if s.currentTokens ≠ [] then
        if isPunct then addToCurrent s t clean false
        else if containsCjk clean && containsCjk s.currentText then
          addToCurrent (flushWord s) t clean false
        else addToCurrent s t clean false
      else addToCurrent s t clean false
    if clean ≠ [] &&
        ((clean.getLast?.getD ' ' ∈ SENTENCE_ENDERS) ||
         (clean.getLast?.getD ' ' ∈ MINOR_BREAKERS) ||
         (containsCjk clean && clean.length = 1)) then
      flushWord s1
    else s1

/-- Strip the leading-space mark from the very first word of the stream (the
final fix-up of `tokensToWords`). -/
def fixFirstWord (ws : List Word) : List Word :=
  match ws with
  | [] => []
  | w :: rest =>
    if w.text.head? = some ' ' then { w with text := trimStart w.text } :: rest
    else w :: rest

/-- `tokensToWords` from subtitles.ts. -/
def tokensToWords (tokens : List Token) : List Word :=
  fixFirstWord (flushWord (tokens.foldl asmStep asmInit)).words

/-! ## Segmenter (`buildSegments`) -/

/-- `safeBoundary` from subtitles.ts. -/
def safeBoundary (prevText nextText : Str) : Bool :=
  if nextText = [] then true
  else if nextText.head? = some ' ' then true
  else
    match prevText.getLast? with
    | some lastChar => lastChar = ' ' || lastChar ∈ SENTENCE_ENDERS || lastChar ∈ MINOR_BREAKERS
    | none => false

/-- Accumulator state of `buildSegments`. -/
structure SegState where
  segments : List Seg
  current : List Word
  currentStart : Option ℚ
  lastTokenEnd : Option ℚ
  currentSpeaker : Option Str
deriving DecidableEq, Repr

/-- Initial segmenter state. -/
def segInit : SegState := ⟨[], [], none, none, none⟩

/-- `closeSegment` from `buildSegments`: flush the pending run of words as a
segment (dropped when its concatenated text is empty). -/
def closeSegment (sentenceBreak : Bool) (s : SegState) : SegState :=
  if s.current = [] then s
  else
    let text := concatText s.current
    if text = [] then
      { s with current := [], currentStart := none, lastTokenEnd := none, currentSpeaker := none }
    else
      let start := s.currentStart.getD 0
      -- `token.end_ms ?? token.start_ms ?? start` collapses to `end_ms`,
      -- which is mandatory on `WordToken`.
      let endCandidates := s.current.map Word.end_ms
      let endv := maxOf endCandidates start
      let speaker := firstNonEmpty (s.current.map Word.speaker)
      { segments := s.segments ++
          [⟨start, endv, speaker, some s.current, none, sentenceBreak, false, false⟩],
        current := [], currentStart := none, lastTokenEnd := none, currentSpeaker := none }

/-- Speaker-change close of `buildSegments` (the first `if` of the loop). -/
def segSpeakerPhase (splitOnSpeaker : Bool) (st : SegState) (w : Word) : SegState :=
  if splitOnSpeaker && st.current ≠ [] && w.speaker.isSome && st.currentSpeaker.isSome &&
      w.speaker ≠ st.currentSpeaker then
    closeSegment false st
  else st

/-- Silence-gap close of `buildSegments` (the second `if` of the loop). -/
def segGapPhase (gapThreshold : ℚ) (st : SegState) (w : Word) : SegState :=
  match st.lastTokenEnd with
  | some lastEnd =>
    if st.current ≠ [] then
      let gap := w.start_ms - lastEnd
      if gapThreshold > 0 && gap > gapThreshold then
        let previousText := ((st.current.getLast?).map Word.text).getD []
        if safeBoundary previousText w.text then closeSegment false st else st
      else st
    else st
  | none => st

/-- The sequential field updates of the loop body of `buildSegments`:
record the segment start on an empty run, append the word, and update
`lastTokenEnd` and `currentSpeaker`. -/
def segAppendCore (st : SegState) (w : Word) : SegState :=
  { segments := st.segments,
    current := st.current ++ [w],
    currentStart := if st.current = [] then some w.start_ms else st.currentStart,
    lastTokenEnd := some w.end_ms,
    currentSpeaker :=
      if st.currentSpeaker = none && w.speaker.isSome then w.speaker
      else st.currentSpeaker }

/-- The rest of the loop body of `buildSegments`: append the word, update
the tracking fields, and close after a sentence break. -/
def segAppendPhase (segmentOnSentence : Bool) (st : SegState) (w : Word) : SegState :=
  let st := segAppendCore st w
  let trimmed := trim w.text
  let sentenceBreak :=
    trimmed ≠ [] &&
      (isSentenceBreak trimmed || (segmentOnSentence && endsWithSentenceBreak trimmed))
  if sentenceBreak then closeSegment true st else st

/-- One iteration of the word loop of `buildSegments`.  `start`/`end` of a
`WordToken` are mandatory, so the `!== undefined` guards of the source hold
and are collapsed here. -/
def segStep (gapThreshold : ℚ) (splitOnSpeaker : Bool) (segmentOnSentence : Bool)
    (st : SegState) (w : Word) : SegState :=
  segAppendPhase segmentOnSentence
    (segGapPhase gapThreshold (segSpeakerPhase splitOnSpeaker st w) w) w

/-- `buildSegments` from subtitles.ts. -/
def buildSegments (tokens : List Word) (gapThreshold : ℚ)
    (splitOnSpeaker : Bool) (segmentOnSentence : Bool) : List Seg :=
  (closeSegment false
    (tokens.foldl (segStep gapThreshold splitOnSpeaker segmentOnSentence) segInit)).segments

/-! ## Readability enforcer: split-index selection -/

/-- `segmentText` from subtitles.ts (note: a present-but-empty token array is
truthy in JavaScript and yields the empty concatenation, not `seg.text`). -/
def segmentText (seg : Seg) : Str :=
  match seg.tokens with
  | some ts => concatText ts
  | none => seg.text.getD []

/-- The token list of a segment, `(current.tokens ?? [])`. -/
def segTokens (seg : Seg) : List Word :=
  seg.tokens.getD []

/-- `tokens[i].text ?? ""` with out-of-range reads yielding the empty string. -/
def wtext (ts : List Word) (i : ℕ) : Str :=
  ((ts.get? i).map Word.text).getD []

/-- `isSafeAt` from subtitles.ts. -/
def isSafeAt (ts : List Word) (index : ℕ) : Bool :=
  if index = 0 || ts.length ≤ index then true
  else
    let left := wtext ts (index - 1)
    let right := wtext ts index
    if right.head? = some ' ' then true
    else if left.getLast? = some ' ' then true
    else
      match left.getLast? with
      | some lastChar => lastChar ∈ SENTENCE_ENDERS || lastChar ∈ MINOR_BREAKERS
      | none => false

/-- `adjustToSafe` from subtitles.ts: probe forward (`index+1 .. n-1`) then
backward (`index-1 .. 1`) for the nearest safe index. -/
def adjustToSafe (ts : List Word) (index : ℕ) : ℕ :=
  if isSafeAt ts index then index
  else
    match (List.range' (index + 1) (ts.length - (index + 1))).find? (isSafeAt ts) with
    | some j => j
    | none =>
      match ((List.range' 1 (index - 1)).reverse).find? (isSafeAt ts) with
      | some j => j
      | none => index

/-- Cumulative character count of the first `k` word texts
(`cumulative[k-1]` of the source). -/
def cumAt (ts : List Word) (k : ℕ) : ℕ :=
  (((ts.take k).map fun w => w.text.length)).sum

/-- The candidate-selection fold of `findSplitIndex`: keep the candidate with
the strictly smallest score, scanning left to right. -/
def pickBest (score : ℕ → ℕ) (init : ℕ) (l : List ℕ) : ℕ :=
  l.foldl (fun best c => if score c < score best then c else best) init

/-- The safe inter-word boundaries of `findSplitIndex`: `i+1` for every `i`
with `safeBoundary (ts[i].text) (ts[i+1].text)`. -/
def safeAfterList (ts : List Word) : List ℕ :=
  ((List.range (ts.length - 1)).filter fun i =>
    safeBoundary (wtext ts i) (wtext ts (i + 1))).map (· + 1)

/-- `findSplitIndex` from subtitles.ts. -/
def findSplitIndex (ts : List Word) : ℕ :=
  let n := ts.length
  if n ≤ 1 then 1
  else
    let totalChars := (ts.map fun w => w.text.length).sum
    let midChars := totalChars / 2
    let safeAfter := safeAfterList ts
    match safeAfter with
    | best :: _ =>
      let score := fun c => ((cumAt ts c : ℤ) - (midChars : ℤ)).natAbs
      adjustToSafe ts (pickBest score best safeAfter)
    | [] =>
      let mid := n / 2
      let sentenceAt := fun i =>
        let t := wtext ts (i - 1)
        t ≠ [] && (t.getLast?.getD ' ' ∈ SENTENCE_ENDERS)
      match ((List.range' 1 mid).reverse).find? sentenceAt with
      | some i => adjustToSafe ts i
      | none =>
        match (List.range' (mid + 1) (n - (mid + 1))).find? sentenceAt with
        | some i => adjustToSafe ts i
        | none => adjustToSafe ts mid

/-! ## Readability enforcer: split phase -/

/-- Whether the split condition of `enforceReadability` fires for a segment:
`(duration > max_dur_ms || cps > max_cps || text.length > maxChars) &&
tokens.length > 1`. -/
def splitCond (cfg : SubtitleConfig) (seg : Seg) : Bool :=
  let text := segmentText seg
  let duration := max 1 (seg.end_ - seg.start)
  let cps := (charsForCps text : ℚ) / (duration / 1000)
  let maxChars := cfg.max_cpl * cfg.max_lines
  (duration > cfg.max_dur_ms || cps > cfg.max_cps || text.length > maxChars) &&
    (segTokens seg).length > 1

/-- The two children created when a segment is split at `idx`.  The
`?? start` / `?? end` fallbacks of the source collapse because `WordToken`
times are mandatory (and the slices are nonempty at every reachable call). -/
def splitChildren (cfg : SubtitleConfig) (seg : Seg) (idx : ℕ) : Seg × Seg :=
  let tokens := segTokens seg
  let leftTokens := tokens.take idx
  let rightTokens := tokens.drop idx
  let left : Seg :=
    { start := ((leftTokens.head?).map Word.start_ms).getD seg.start,
      end_ := ((leftTokens.getLast?).map Word.end_ms).getD seg.end_,
      speaker := seg.speaker,
      tokens := some leftTokens,
      text := none,
      sentence_break := false,
      prefix_ellipsis := false,
      suffix_ellipsis := cfg.ellipses }
  let right : Seg :=
    { start := ((rightTokens.head?).map Word.start_ms).getD seg.start,
      end_ := ((rightTokens.getLast?).map Word.end_ms).getD seg.end_,
      speaker := seg.speaker,
      tokens := some rightTokens,
      text := none,
      sentence_break := seg.sentence_break,
      prefix_ellipsis := cfg.ellipses,
      suffix_ellipsis := false }
  (left, right)

/-- Fuel bound for the split worklist: each split strictly decreases
`3 ^ (number of words)` summed over the queue, and emitting a segment
consumes at least `3 ^ 0 = 1`. -/
def splitMeasure (queue : List Seg) : ℕ :=
  (queue.map fun s => 3 ^ (segTokens s).length).sum

/-- The split worklist loop of `enforceReadability` (queue discipline:
`shift` from the front, `unshift` children to the front), written with
explicit fuel so that it is structurally recursive.  `splitGo_fuel_sufficient`
below shows the chosen fuel makes this agree with the unbounded loop. -/
def splitGo (cfg : SubtitleConfig) : ℕ → List Seg → List Seg
  | 0, _ => []
  | _ + 1, [] => []
  | fuel + 1, current :: queue =>
    if splitCond cfg current then
      let idx := findSplitIndex (segTokens current)
      splitGo cfg fuel
        ((splitChildren cfg current idx).1 :: (splitChildren cfg current idx).2 :: queue)
    else current :: splitGo cfg fuel queue

/-- The split phase of `enforceReadability`: run the worklist for each input
segment in turn. -/
def splitPhase (cfg : SubtitleConfig) (segments : List Seg) : List Seg :=
  (segments.map fun seg => splitGo cfg (splitMeasure [seg]) [seg]).flatten

/-! ## Readability enforcer: merge phase -/

/-- The merged segment of the merge phase. -/
def mergedSeg (seg next : Seg) : Seg :=
  { tokens := some (segTokens seg ++ segTokens next),
    start := seg.start,
    end_ := next.end_,
    speaker := (seg.speaker.orElse fun _ => next.speaker),
    sentence_break := next.sentence_break,
    text := none,
    prefix_ellipsis := false,
    suffix_ellipsis := false }

/-- One left-to-right pass of the merge loop; the boolean is the `changed`
flag of the source. -/
def mergePass (cfg : SubtitleConfig) : List Seg → List Seg × Bool
  | [] => ([], false)
  | [seg] => ([seg], false)
  | seg :: next :: rest =>
    if seg.end_ - seg.start < cfg.min_dur_ms then
      if cfg.segment_on_sentence && seg.sentence_break then
        (seg :: (mergePass cfg (next :: rest)).1, (mergePass cfg (next :: rest)).2)
      else if next.end_ - seg.start ≤ cfg.max_dur_ms then
        (mergedSeg seg next :: (mergePass cfg rest).1, true)
      else
        (seg :: (mergePass cfg (next :: rest)).1, (mergePass cfg (next :: rest)).2)
    else
      (seg :: (mergePass cfg (next :: rest)).1, (mergePass cfg (next :: rest)).2)

/-- The `while (changed)` loop of the merge phase, with fuel (each changing
pass strictly shrinks the list, so `length + 1` passes suffice,
see `mergeGo_fixpoint`). -/
def mergeGo (cfg : SubtitleConfig) : ℕ → List Seg → List Seg
  | 0, l => l
  | fuel + 1, l =>
    if (mergePass cfg l).2 then mergeGo cfg fuel (mergePass cfg l).1
    else (mergePass cfg l).1

/-- `enforceReadability` from subtitles.ts: split phase, then merge phase
iterated to a fixed point. -/
def enforceReadability (segments : List Seg) (cfg : SubtitleConfig) : List Seg :=
  let out := splitPhase cfg segments
  mergeGo cfg (out.length + 1) out

/-- `tokensToSubtitleSegments` from subtitles.ts. -/
def tokensToSubtitleSegments (tokens : List Token) (cfg : SubtitleConfig) : List Seg :=
  let words := tokensToWords tokens
  let segments := buildSegments words cfg.gap_ms cfg.split_on_speaker cfg.segment_on_sentence
  if segments = [] then []
  else enforceReadability segments cfg

/-! ## Line wrapper -/

/-- `splitTextByDelimiters` from subtitles.ts.  The delimiter set stores
strings; a character matches only single-character delimiters. -/
def splitTextByDelimiters (text : Str) (delimiters : List Str) : List Str :=
  if text = [] then []
  else
    let cleaned := text.map fun c => if c = '\n' then ' ' else c
    let delimSet := delimiters.filter fun d => d ≠ []
    if delimSet = [] then
      let stripped := trim cleaned
      if stripped = [] then [] else [stripped]
    else
      let step := fun (acc : List Str × Str) c =>
        let current := acc.2 ++ [c]
        if [c] ∈ delimSet then
          let chunk := trim current
          ((if chunk ≠ [] then acc.1 ++ [chunk] else acc.1), [])
        else (acc.1, current)
      let folded := cleaned.foldl step ([], [])
      let remainder := trim folded.2
      if remainder ≠ [] then folded.1 ++ [remainder] else folded.1

/-- Inner loop of `partitionChunks`'s `helper`: try to extend the current
line chunk-by-chunk, recursing on the remainder through `helperNext` (the
`helper` at one fewer remaining lines). -/
def pinner (maxCpl : ℕ) (helperNext : List Str → Option (List Str)) :
    Str → List Str → Option (List Str)
  | line, rest =>
    if line.length > maxCpl then none
    else
      match helperNext rest with
      | some out => some (line :: out)
      | none =>
        match rest with
        | [] => none
        | c :: rest' =>
          pinner maxCpl helperNext (if line ≠ [] then line ++ ' ' :: c else c) rest'

/-- `helper` of `partitionChunks`: `start == chunks.length` yields `[]`,
exhausted line budget yields `null`, otherwise run the extension loop. -/
def phelper (maxCpl : ℕ) : ℕ → List Str → Option (List Str)
  | _, [] => some []
  | 0, _ :: _ => none
  | remaining + 1, c :: rest => pinner maxCpl (phelper maxCpl remaining) c rest

/-- `partitionChunks` from subtitles.ts (`none` models the `null` result). -/
def partitionChunks (chunks : List Str) (maxLines maxCpl : ℕ) : Option (List Str) :=
  if maxLines = 0 then some []
  else if chunks = [] then some []
  else phelper maxCpl maxLines chunks

/-- `wrapWithPreferredDelimiters` from subtitles.ts. -/
def wrapWithPreferredDelimiters (text : Str) (delimiters : List Str)
    (maxCpl maxLines : ℕ) : Option (List Str) :=
  if maxLines ≤ 1 then none
  else
    let chunks := splitTextByDelimiters text delimiters
    if chunks.length ≤ 1 then none
    else
      match partitionChunks chunks maxLines maxCpl with
      | none => none
      | some partition =>
        let lines := (partition.map trim).filter fun l => l ≠ []
        if lines.length ≤ 1 then none
        else some (lines.take maxLines)

/-- The whitespace-bisection search of `wrapTwoLinesNaive`: scan `delta`
outward from the midpoint, preferring the left probe. -/
def findBreakPos (trimmed : Str) (target : ℕ) : Option ℕ :=
  (List.range trimmed.length).findSome? fun delta =>
    if 0 < target - delta ∧ trimmed.get? (target - delta) = some ' ' then
      some (target - delta)
    else if target + delta < trimmed.length ∧ trimmed.get? (target + delta) = some ' ' then
      some (target + delta)
    else none

/-- `wrapTwoLinesNaive` from subtitles.ts. -/
def wrapTwoLinesNaive (text : Str) (maxCpl maxLines : ℕ)
    (preferredDelimiters : List Str) : List Str :=
  let trimmed := trim text
  if maxLines ≤ 1 then [trimmed]
  else
    match (if preferredDelimiters ≠ [] then
        wrapWithPreferredDelimiters trimmed preferredDelimiters maxCpl maxLines
      else none) with
    | some lines => lines
    | none =>
      if trimmed.length ≤ maxCpl then [trimmed]
      else if ' ' ∈ trimmed then
        let target := trimmed.length / 2
        let breakPos := (findBreakPos trimmed target).getD (min trimmed.length maxCpl)
        let line1 := trim (trimmed.take breakPos)
        let line2 := trim (trimmed.drop breakPos)
        let line1 := if line1.length > maxCpl then trimEnd (line1.take maxCpl) else line1
        let line2 :=
          if line2.length > maxCpl ∧ maxLines > 1 then trimEnd (line2.take maxCpl) else line2
        if maxLines ≥ 2 then [line1, line2] else [line1]
      else
        let line1 := trimmed.take maxCpl
        let line2 := (trimmed.drop maxCpl).take maxCpl
        if line2 ≠ [] then (if maxLines ≥ 2 then [line1, line2] else [line1]) else [line1]

/-- The safe inter-word boundaries of `wrapTwoLinesTokenAware` (note the
extra `if (!next) continue` guard, absent from `findSplitIndex`). -/
def safeAfterSet (ts : List Word) : List ℕ :=
  (List.range (ts.length - 1)).filter fun i =>
    !(wtext ts (i + 1)).isEmpty && safeBoundary (wtext ts i) (wtext ts (i + 1))

/-- First phase of `wrapTwoLinesTokenAware`: walk forward accumulating
characters; on first overflow of `maxCpl`, descend from the last safe
boundary looking for a split where both halves fit. -/
def tokenAwareGreedy (ts : List Word) (maxCpl : ℕ) : Option (Str × Str) :=
  let safeAfter := safeAfterSet ts
  match (List.range ts.length).find? (fun i => decide (cumAt ts (i + 1) > maxCpl)) with
  | none => none
  | some iStop =>
    match (safeAfter.filter fun j => j ≤ iStop).getLast? with
    | none => none
    | some lastSafe =>
      ((List.range (lastSafe + 1)).reverse).findSome? fun candidate =>
        if candidate ∈ safeAfter then
          let left := trimEnd (concatText (ts.take (candidate + 1)))
          if left.length ≤ maxCpl then
            let right := trimStart (concatText (ts.drop (candidate + 1)))
            if right.length ≤ maxCpl then some (left, right) else none
          else none
        else none

/-- Second phase of `wrapTwoLinesTokenAware`: split at the safe boundary
nearest the character-count midpoint, accepted only if both halves fit. -/
def tokenAwareBalanced (ts : List Word) (maxCpl : ℕ) : Option (Str × Str) :=
  let safeAfter := safeAfterSet ts
  let totalChars := (ts.map fun w => w.text.length).sum
  let target := totalChars / 2
  match safeAfter with
  | [] => none
  | first :: _ =>
    let score := fun i => ((cumAt ts (i + 1) : ℤ) - (target : ℤ)).natAbs
    let nearest := pickBest score first safeAfter
    let left := trimEnd (concatText (ts.take (nearest + 1)))
    let right := trimStart (concatText (ts.drop (nearest + 1)))
    if left.length ≤ maxCpl ∧ right.length ≤ maxCpl then some (left, right) else none

/-- `wrapTwoLinesTokenAware` from subtitles.ts. -/
def wrapTwoLinesTokenAware (ts : List Word) (text : Str) (maxCpl maxLines : ℕ)
    (preferredDelimiters : List Str) : List Str :=
  let stripped := trim text
  if maxLines ≤ 1 then [stripped]
  else
    match (if preferredDelimiters ≠ [] then
        wrapWithPreferredDelimiters stripped preferredDelimiters maxCpl maxLines
      else none) with
    | some lines => lines
    | none =>
      if stripped.length ≤ maxCpl then [stripped]
      else
        match tokenAwareGreedy ts maxCpl with
        | some (left, right) => [left, right]
        | none =>
          match tokenAwareBalanced ts maxCpl with
          | some (left, right) => [left, right]
          | none => [stripped]

/-! ## Cue renderer -/

/-- Digits of a natural number (the JavaScript `Number.prototype.toString`
restricted to naturals), with internal fuel so the definition is structural. -/
def natDigitsAux : ℕ → ℕ → Str
  | 0, _ => []
  | fuel + 1, n =>
    if n < 10 then [Nat.digitChar n]
    else natDigitsAux fuel (n / 10) ++ [Nat.digitChar (n % 10)]

/-- Decimal digit string of a natural number. -/
def natDigits (n : ℕ) : Str := natDigitsAux (n + 1) n

/-- `String.prototype.padStart`. -/
def padStart (s : Str) (n : ℕ) (c : Char) : Str := List.replicate (n - s.length) c ++ s

/-- `formatTimestamp` from subtitles.ts. -/
def formatTimestamp (ms : ℚ) : Str :=
  let millis : ℕ := (max 0 (Rat.floor ms)).toNat
  let totalSeconds := millis / 1000
  let remainderMillis := millis % 1000
  let seconds := totalSeconds % 60
  let totalMinutes := totalSeconds / 60
  let minutes := totalMinutes % 60
  let hours := totalMinutes / 60
  padStart (natDigits hours) 2 '0' ++ [':'] ++ padStart (natDigits minutes) 2 '0' ++ [':'] ++
    padStart (natDigits seconds) 2 '0' ++ [','] ++ padStart (natDigits remainderMillis) 3 '0'

/-- One entry of `renderSegments` (index is the 0-based position). -/
def renderOne (cfg : SubtitleConfig) (index : ℕ) (seg : Seg) : SubtitleEntry :=
  let text := segmentText seg
  let text := if seg.prefix_ellipsis then '…' :: text else text
  let text := if seg.suffix_ellipsis then text ++ ['…'] else text
  let tokens := segTokens seg
  let lines :=
    if tokens ≠ [] then
      wrapTwoLinesTokenAware tokens text cfg.max_cpl cfg.max_lines cfg.line_split_delimiters
    else
      wrapTwoLinesNaive text cfg.max_cpl cfg.max_lines cfg.line_split_delimiters
  ⟨index + 1, seg.start, seg.end_, lines.take cfg.max_lines⟩

/-- The `forEach` of `renderSegments`, carrying the position. -/
def renderGo (cfg : SubtitleConfig) : ℕ → List Seg → List SubtitleEntry
  | _, [] => []
  | i, seg :: rest => renderOne cfg i seg :: renderGo cfg (i + 1) rest

/-- `renderSegments` from subtitles.ts. -/
def renderSegments (segments : List Seg) (cfg : SubtitleConfig) : List SubtitleEntry :=
  renderGo cfg 0 segments

/-- The file content produced by `writeSrtFile` (the pure part: the string
passed to the file write). -/
def writeSrtContent (entries : List SubtitleEntry) : Str :=
  let chunks := (entries.map fun e =>
    [natDigits e.index,
     formatTimestamp e.start_ms ++ " --> ".toList ++ formatTimestamp e.end_ms] ++
    e.lines ++ [[]]).flatten
  (List.intercalate ['\n'] chunks) ++ ['\n']

/-! ## Transcript extraction and the `srt` entry point -/

/-- A JSON-like value as walked by `collectTokens`: primitives, token-shaped
objects (objects carrying a `text` key), arrays, and container objects whose
recognized nested keys are, in `NESTED_TOKEN_KEYS` order: `alternatives`,
`segments`, `paragraphs`, `turns`, `entries`, `results`, `items` (plus the
`tokens` array itself, modelled as a token list when present). -/
inductive JVal where
  | prim : JVal
  | tokenLike : Token → JVal
  | arr : List JVal → JVal
  | obj : Option (List Token) → Option JVal → Option JVal → Option JVal → Option JVal →
      Option JVal → Option JVal → Option JVal → JVal

/-- Whether a value is token-shaped (`typeof item === "object" && "text" in item`). -/
def JVal.isTokenLike : JVal → Bool
  | .tokenLike _ => true
  | _ => false

/-- The token carried by a token-shaped value. -/
def JVal.asToken : JVal → Option Token
  | .tokenLike t => some t
  | _ => none

mutual

/-- `collectTokens` from subtitles.ts. -/
def collectTokens : JVal → Bool → List Token
  | .prim, _ => []
  | .tokenLike _, _ => []
  | .arr items, _ =>
    if !items.isEmpty && items.all JVal.isTokenLike then items.filterMap JVal.asToken
    else collectList items
  | .obj tks a s p t e r i, skipImmediate =>
    (if !skipImmediate then
      match tks with
      | some l => if !l.isEmpty then l else []
      | none => []
    else []) ++
    collectOpt a ++ collectOpt s ++ collectOpt p ++ collectOpt t ++ collectOpt e ++
    collectOpt r ++ collectOpt i

/-- `collectFromIterable`: collect from each array item. -/
def collectList : List JVal → List Token
  | [] => []
  | v :: rest => collectTokens v false ++ collectList rest

/-- Collect from an optionally present nested container. -/
def collectOpt : Option JVal → List Token
  | none => []
  | some v => collectTokens v false

end

/-- The top-level `transcript.tokens` array, when the transcript is an object. -/
def topTokens : JVal → Option (List Token)
  | .obj tks _ _ _ _ _ _ _ => tks
  | _ => none

/-- The message of the input error. -/
def noTokensMsg : Str := "No tokens found in transcript.".toList

/-- The message of the empty-result error. -/
def noSegmentsMsg : Str := "No subtitle segments produced from transcript.".toList

/-- `extractTokens` from subtitles.ts. -/
def extractTokens (transcript : JVal) : Except Str (List Token) :=
  match topTokens transcript with
  | some (t :: rest) => .ok (t :: rest)
  | _ =>
    let nested := collectTokens transcript true
    if nested ≠ [] then .ok nested else .error noTokensMsg

/-- `srt` from subtitles.ts, as a pure function from an in-memory transcript
to either an error or the file content that would be written.  Both throws of
the source occur before `writeSrtFile` is reached, so an error result carries
no content. -/
def srtModel (transcript : JVal) (cfg : SubtitleConfig) : Except Str Str :=
  match extractTokens transcript with
  | .error e => .error e
  | .ok tokens =>
    let segments := tokensToSubtitleSegments tokens cfg
    if segments = [] then .error noSegmentsMsg
    else .ok (writeSrtContent (renderSegments segments cfg))

/-! ## Predicates used to state the claims -/

/-- A token text with its leading whitespace run collapsed to a single space
(the normalisation actually performed by the word assembler on each token). -/
def normText (t : Token) : Str :=
  match t.text with
  | [] => []
  | c :: _ => if isWs c then ' ' :: trimStart t.text else t.text

/-- Well-formed word lists: every word has `start_ms ≤ end_ms` and the start
times are nondecreasing along the list. -/
def wordsWF (ws : List Word) : Prop :=
  (∀ w ∈ ws, w.start_ms ≤ w.end_ms) ∧
    List.Pairwise (fun a b => a.start_ms ≤ b.start_ms) ws

/-- Structural well-formedness of a pipeline segment: a nonempty token list
whose head start time is the segment start, and `start ≤ end`. -/
def segOk (s : Seg) : Prop :=
  ∃ w rest, s.tokens = some (w :: rest) ∧ s.start = w.start_ms ∧ s.start ≤ s.end_

/-- All words of a segment list, in order. -/
def allWords (l : List Seg) : List Word :=
  (l.map segTokens).flatten

/-- All member tokens accounted for by an assembler state: the tokens of the
emitted words followed by the tokens of the pending run. -/
def outInner (σ : AsmState) : List Token :=
  List.flatten (σ.words.map Word.inner) ++ σ.currentTokens

/-- All text accounted for by an assembler state: the text of the emitted
words followed by the pending prefix-space mark and the pending text. -/
def outText (σ : AsmState) : Str :=
  List.flatten (σ.words.map Word.text) ++
    (if σ.currentPrefixSpace then [' '] else []) ++ σ.currentText

/-- A tidy assembler state: an empty pending run carries no pending text and
no pending prefix-space mark. -/
def asmGood (σ : AsmState) : Prop :=
  σ.currentTokens = [] → σ.currentText = [] ∧ σ.currentPrefixSpace = false

/-- Invariant of the segmenter fold: emitted segments are structurally sound
and the words of the emitted segments, the pending run and the unprocessed
suffix together form a sublist of the full word stream. -/
def stInv (ws : List Word) (tail : List Word) (st : SegState) : Prop :=
  (∀ s ∈ st.segments, segOk s) ∧
    ((allWords st.segments ++ st.current) ++ tail).Sublist ws ∧
    (st.current ≠ [] → ∃ v rest, st.current = v :: rest ∧ st.currentStart = some v.start_ms)

/-- The merge condition of the merge pass, as a Boolean on an adjacent pair. -/
def mergeCond (cfg : SubtitleConfig) (seg next : Seg) : Bool :=
  (seg.end_ - seg.start < cfg.min_dur_ms) &&
    !(cfg.segment_on_sentence && seg.sentence_break) &&
    (next.end_ - seg.start ≤ cfg.max_dur_ms)

/-! ## Concrete values used in counterexamples and witnesses -/

/-- A configuration with a tight character budget (`max_cpl = 2`,
`max_lines = 1`) and otherwise default values. -/
def cfgTight : SubtitleConfig := ⟨1200, 1000, 7000, 17, 2, 1, [], false, false, false⟩

/-- A three-character word spanning 0–500 ms. -/
def wordAbc1 : Word := ⟨['a', 'b', 'c'], 0, 500, none, []⟩

/-- A three-character word spanning 500–1000 ms. -/
def wordAbc2 : Word := ⟨['a', 'b', 'c'], 500, 1000, none, []⟩

/-- A single-word segment spanning 0–500 ms. -/
def segAbc1 : Seg := ⟨0, 500, none, some [wordAbc1], none, false, false, false⟩

/-- A single-word segment spanning 500–1000 ms. -/
def segAbc2 : Seg := ⟨500, 1000, none, some [wordAbc2], none, false, false, false⟩

/-- A two-word segment comfortably within every default budget. -/
def segWithin : Seg :=
  ⟨0, 2000, none,
    some [⟨['a', 'b'], 0, 1000, none, []⟩, ⟨[' ', 'c', 'd'], 1000, 2000, none, []⟩],
    none, false, false, false⟩

/-- A 100-character run of `a`. -/
def str100 : Str := List.replicate 100 'a'

/-- A single word carrying the 100-character run. -/
def word100 : Word := ⟨str100, 0, 1000, none, []⟩

/-- A segment whose text is a single 100-character run with no safe
boundaries and no spaces. -/
def seg100 : Seg := ⟨0, 1000, none, some [word100], none, false, false, false⟩

/-- A short single-word segment (duration 500 ms, below the default
minimum). -/
def segShort : Seg := ⟨0, 500, none, some [⟨['h', 'i'], 0, 500, none, []⟩], none, false, false, false⟩

/-- A single-word segment ending at 8000 ms, so that merging it with
`segShort` would span more than the default maximum duration. -/
def segFar : Seg := ⟨600, 8000, none, some [⟨['y', 'o'], 600, 8000, none, []⟩], none, false, false, false⟩

/-- A one-character token with `start_ms = 5` and `end_ms = 0` (degenerate
timing, as a transcript may contain). -/
def tokBad : Token := ⟨['a'], some 5, some 0, none⟩

/-- Token with text `a`. -/
def tokA : Token := ⟨['a'], none, none, none⟩

/-- Token whose text has two leading spaces. -/
def tokBB : Token := ⟨[' ', ' ', 'b'], none, none, none⟩

/-- A word with text `a` spanning 0–0 ms. -/
def wordA0 : Word := ⟨['a'], 0, 0, none, []⟩

/-- A word with a leading space marker starting at 100 ms. -/
def wordSpB : Word := ⟨[' ', 'b'], 100, 200, none, []⟩

/-- A segmenter state with one pending word and `lastTokenEnd = 0`. -/
def stPending : SegState := ⟨[], [wordA0], some 0, some 0, none⟩

/-- Two well-formed words separated by a 100 ms gap. -/
def wordsGood : List Word :=
  [⟨['h', 'i', ' '], 0, 500, none, []⟩, ⟨['y', 'o'], 600, 1000, none, []⟩]

/-- Two well-formed words separated by a 1500 ms gap, the second one long
enough that the resulting segments cannot be merged back. -/
def wordsGap : List Word :=
  [⟨['h', 'i', ' '], 0, 500, none, []⟩, ⟨['y', 'o'], 2000, 8000, none, []⟩]

/-- The first segment the pipeline builds from `wordsGap`. -/
def segGap1 : Seg :=
  ⟨0, 500, none, some [⟨['h', 'i', ' '], 0, 500, none, []⟩], none, false, false, false⟩

/-- The second segment the pipeline builds from `wordsGap`. -/
def segGap2 : Seg :=
  ⟨2000, 8000, none, some [⟨['y', 'o'], 2000, 8000, none, []⟩], none, false, false, false⟩

/-- A transcript object whose `tokens` array is present but empty, with no
recognized nested containers. -/
def trEmptyTokens : JVal := JVal.obj (some []) none none none none none none none

/-- A transcript object whose only token is a pure-whitespace token. -/
def trWhitespace : JVal :=
  JVal.obj (some [⟨[' '], some 0, some 5, none⟩]) none none none none none none none

/-! # Proofs

## Split-index bounds -/

theorem pickBest_mem (score : ℕ → ℕ) :
    ∀ (l : List ℕ) (init : ℕ), pickBest score init l = init ∨ pickBest score init l ∈ l := by
  intro l
  induction l with
  | nil => intro init; exact Or.inl rfl
  | cons x xs ih =>
    intro init
    have hstep : pickBest score init (x :: xs) =
        pickBest score (if score x < score init then x else init) xs := rfl
    rcases ih (if score x < score init then x else init) with h | h
    · rw [hstep, h]
      split
      · exact Or.inr (List.mem_cons_self _ _)
      · exact Or.inl rfl
    · rw [hstep]
      exact Or.inr (List.mem_cons_of_mem _ h)

theorem adjustToSafe_bounds (ts : List Word) (i : ℕ)
    (h1 : 1 ≤ i) (h2 : i ≤ ts.length - 1) :
    1 ≤ adjustToSafe ts i ∧ adjustToSafe ts i ≤ ts.length - 1 := by
  unfold adjustToSafe
  split
  · exact ⟨h1, h2⟩
  · split
    · next j hj =>
      have hmem := List.mem_of_find?_eq_some hj
      rw [List.mem_range'] at hmem
      obtain ⟨k, hk, rfl⟩ := hmem
      omega
    · split
      · next j hj =>
        have hmem := List.mem_of_find?_eq_some hj
        rw [List.mem_reverse, List.mem_range'] at hmem
        obtain ⟨k, hk, rfl⟩ := hmem
        omega
      · exact ⟨h1, h2⟩

theorem safeAfterList_bounds (ts : List Word) (j : ℕ) (hj : j ∈ safeAfterList ts) :
    1 ≤ j ∧ j ≤ ts.length - 1 := by
  unfold safeAfterList at hj
  simp only [List.mem_map, List.mem_filter, List.mem_range] at hj
  obtain ⟨i, ⟨hi, _⟩, rfl⟩ := hj
  omega

theorem pickBest_safeAfter_bounds (ts : List Word) (sc : ℕ → ℕ) (best : ℕ) (tail : List ℕ)
    (heq : safeAfterList ts = best :: tail) :
    1 ≤ pickBest sc best (safeAfterList ts) ∧
      pickBest sc best (safeAfterList ts) ≤ ts.length - 1 := by
  rcases pickBest_mem sc (safeAfterList ts) best with h | h
  · rw [h]
    exact safeAfterList_bounds ts best (heq ▸ List.mem_cons_self _ _)
  · exact safeAfterList_bounds ts _ h

theorem findSplitIndex_bounds (ts : List Word) (h : 2 ≤ ts.length) :
    0 < findSplitIndex ts ∧ findSplitIndex ts < ts.length := by
  have hb : ∀ i, 1 ≤ i → i ≤ ts.length - 1 →
      0 < adjustToSafe ts i ∧ adjustToSafe ts i < ts.length := by
    intro i hi1 hi2
    have := adjustToSafe_bounds ts i hi1 hi2
    omega
  unfold findSplitIndex
  dsimp only
  split
  · omega
  · split
    · next best tail heq =>
      refine hb _ ?_ ?_
      · exact (pickBest_safeAfter_bounds ts _ best tail heq).1
      · exact (pickBest_safeAfter_bounds ts _ best tail heq).2
    · next heq =>
      split
      · next i hi =>
        have hmem := List.mem_of_find?_eq_some hi
        rw [List.mem_reverse, List.mem_range'] at hmem
        obtain ⟨k, hk, rfl⟩ := hmem
        exact hb _ (by omega) (by omega)
      · split
        · next i hi =>
          have hmem := List.mem_of_find?_eq_some hi
          rw [List.mem_range'] at hmem
          obtain ⟨k, hk, rfl⟩ := hmem
          exact hb _ (by omega) (by omega)
        · exact hb _ (by omega) (by omega)

theorem splitGo_nil (cfg : SubtitleConfig) : ∀ fuel, splitGo cfg fuel [] = [] := by
  intro fuel
  cases fuel <;> rfl

theorem splitGo_emit (cfg : SubtitleConfig) (s : Seg) (hs : splitCond cfg s = false) :
    ∀ fuel q, splitGo cfg (fuel + 1) (s :: q) = s :: splitGo cfg fuel q := by
  intro fuel q
  simp [splitGo, hs]

theorem splitGo_cons (cfg : SubtitleConfig) (fuel : ℕ) (s : Seg) (q : List Seg) :
    splitGo cfg (fuel + 1) (s :: q) =
      if splitCond cfg s then
        splitGo cfg fuel
          ((splitChildren cfg s (findSplitIndex (segTokens s))).1 ::
            (splitChildren cfg s (findSplitIndex (segTokens s))).2 :: q)
      else s :: splitGo cfg fuel q := rfl

theorem splitMeasure_cons (s : Seg) (q : List Seg) :
    splitMeasure (s :: q) = 3 ^ (segTokens s).length + splitMeasure q := by
  simp [splitMeasure]

theorem splitMeasure_pos (s : Seg) (q : List Seg) : 0 < splitMeasure (s :: q) := by
  have h := Nat.one_le_pow (segTokens s).length 3 (by norm_num)
  rw [splitMeasure_cons]
  omega

theorem splitCond_two_le (cfg : SubtitleConfig) (s : Seg) (h : splitCond cfg s = true) :
    2 ≤ (segTokens s).length := by
  unfold splitCond at h
  simp only [Bool.and_eq_true, decide_eq_true_eq] at h
  omega

theorem three_pow_split (a b n : ℕ) (ha : 1 ≤ a) (hb : 1 ≤ b) (hab : a + b = n) :
    3 ^ a + 3 ^ b < 3 ^ n := by
  have ha' : 3 ^ a ≤ 3 ^ (n - 1) := Nat.pow_le_pow_right (by norm_num) (by omega)
  have hb' : 3 ^ b ≤ 3 ^ (n - 1) := Nat.pow_le_pow_right (by norm_num) (by omega)
  have hpos : 1 ≤ 3 ^ (n - 1) := Nat.one_le_pow _ _ (by norm_num)
  have hn : 3 ^ n = 3 ^ (n - 1) * 3 := by
    rw [← pow_succ]
    congr 1
    omega
  omega

theorem splitMeasure_children_lt (cfg : SubtitleConfig) (s : Seg) (q : List Seg)
    (h : splitCond cfg s = true) :
    splitMeasure ((splitChildren cfg s (findSplitIndex (segTokens s))).1 ::
      (splitChildren cfg s (findSplitIndex (segTokens s))).2 :: q) < splitMeasure (s :: q) := by
  have h2 := splitCond_two_le cfg s h
  have hb := findSplitIndex_bounds _ h2
  have hL : segTokens (splitChildren cfg s (findSplitIndex (segTokens s))).1
      = (segTokens s).take (findSplitIndex (segTokens s)) := rfl
  have hR : segTokens (splitChildren cfg s (findSplitIndex (segTokens s))).2
      = (segTokens s).drop (findSplitIndex (segTokens s)) := rfl
  rw [splitMeasure_cons, splitMeasure_cons, splitMeasure_cons, hL, hR]
  have hlt := three_pow_split ((segTokens s).take (findSplitIndex (segTokens s))).length
    ((segTokens s).drop (findSplitIndex (segTokens s))).length ((segTokens s).length
      ) (by
        rw [List.length_take]
        omega) (by
        rw [List.length_drop]
        omega) (by
        rw [List.length_take, List.length_drop]
        omega)
  omega

theorem splitGo_fuel_eq (cfg : SubtitleConfig) :
    ∀ n m q, splitMeasure q ≤ n → splitMeasure q ≤ m → splitGo cfg n q = splitGo cfg m q := by
  intro n
  induction n with
  | zero =>
    intro m q hn _
    cases q with
    | nil => rw [splitGo_nil, splitGo_nil]
    | cons s q' => exact absurd hn (by have := splitMeasure_pos s q'; omega)
  | succ n' ih =>
    intro m q hn hm
    cases q with
    | nil => rw [splitGo_nil, splitGo_nil]
    | cons s q' =>
      have hone := Nat.one_le_pow (segTokens s).length 3 (by norm_num)
      have hcons := splitMeasure_cons s q'
      cases m with
      | zero => exact absurd hm (by have := splitMeasure_pos s q'; omega)
      | succ m' =>
        by_cases hc : splitCond cfg s = true
        · have hlt := splitMeasure_children_lt cfg s q' hc
          rw [splitGo_cons, splitGo_cons, hc, if_pos rfl]
          exact ih m' _ (by omega) (by omega)
        · have hc' : splitCond cfg s = false := by
            revert hc
            cases splitCond cfg s <;> simp
          rw [splitGo_emit cfg s hc', splitGo_emit cfg s hc', ih m' q' (by omega) (by omega)]

theorem splitGo_all_emitted (cfg : SubtitleConfig) :
    ∀ fuel q s, s ∈ splitGo cfg fuel q → splitCond cfg s = false := by
  intro fuel
  induction fuel with
  | zero =>
    intro q s h
    simp only [splitGo] at h
    exact absurd h (List.not_mem_nil s)
  | succ n ih =>
    intro q s h
    cases q with
    | nil =>
      rw [splitGo_nil] at h
      exact absurd h (List.not_mem_nil s)
    | cons cur q' =>
      by_cases hc : splitCond cfg cur = true
      · rw [splitGo_cons, hc, if_pos rfl] at h
        exact ih _ s h
      · have hc' : splitCond cfg cur = false := by
          revert hc
          cases splitCond cfg cur <;> simp
        rw [splitGo_cons, hc', if_neg (by simp)] at h
        rcases List.mem_cons.mp h with rfl | h'
        · exact hc'
        · exact ih _ s h'

/-- Claim C6: for every word list of length at least 2, `findSplitIndex`
returns an index strictly between 0 and the length, so each split produces
two nonempty, strictly smaller children; and a single-word segment is always
emitted unchanged by the split phase, whatever the budgets say. -/
theorem findSplitIndex_split_termination :
    (∀ ts : List Word, 2 ≤ ts.length →
      (0 < findSplitIndex ts ∧ findSplitIndex ts < ts.length) ∧
      0 < (ts.take (findSplitIndex ts)).length ∧
      (ts.take (findSplitIndex ts)).length < ts.length ∧
      0 < (ts.drop (findSplitIndex ts)).length ∧
      (ts.drop (findSplitIndex ts)).length < ts.length) ∧
    (∀ (cfg : SubtitleConfig) (s : Seg), (segTokens s).length ≤ 1 →
      splitPhase cfg [s] = [s]) := by
  constructor
  · intro ts h
    have hb := findSplitIndex_bounds ts h
    have ht : (ts.take (findSplitIndex ts)).length = min (findSplitIndex ts) ts.length :=
      List.length_take _ _
    have hd : (ts.drop (findSplitIndex ts)).length = ts.length - findSplitIndex ts :=
      List.length_drop _ _
    omega
  · intro cfg s hlen
    have hc : splitCond cfg s = false := by
      have hnot : ¬ ((segTokens s).length > 1) := by omega
      simp [splitCond, hnot]
    have hphase : splitPhase cfg [s] = splitGo cfg (splitMeasure [s]) [s] := by
      simp [splitPhase]
    rcases Nat.le_one_iff_eq_zero_or_eq_one.mp hlen with h0 | h1
    · have hm : splitMeasure [s] = 1 := by simp [splitMeasure, h0]
      rw [hphase, hm]
      rw [show (1 : ℕ) = 0 + 1 from rfl, splitGo_emit cfg s hc, splitGo_nil]
    · have hm : splitMeasure [s] = 3 := by simp [splitMeasure, h1]
      rw [hphase, hm]
      rw [show (3 : ℕ) = 2 + 1 from rfl, splitGo_emit cfg s hc, splitGo_nil]

/-! ## Claim C2: readability budgets -/

/-- Claim C2 (counterexample): with `max_cpl = 2`, `max_lines = 1` and two
short single-word segments, the merge phase of `enforceReadability` produces
a final two-word segment whose text exceeds the character budget — so the
claim, stated over the final output, is false. -/
theorem enforceReadability_budget_counterexample :
    ∃ s ∈ enforceReadability [segAbc1, segAbc2] cfgTight,
      2 ≤ (segTokens s).length ∧
        cfgTight.max_cpl * cfgTight.max_lines < (segmentText s).length := by
  decide

theorem splitPhase_mem_emitted (cfg : SubtitleConfig) (segments : List Seg) (s : Seg)
    (hmem : s ∈ splitPhase cfg segments) : splitCond cfg s = false := by
  unfold splitPhase at hmem
  rw [List.mem_flatten] at hmem
  obtain ⟨l, hl, hsl⟩ := hmem
  rw [List.mem_map] at hl
  obtain ⟨seg, _, rfl⟩ := hl
  exact splitGo_all_emitted cfg _ _ s hsl

/-- Claim C2 (amended): the budget guarantee holds of the segments emitted by
the split phase of `enforceReadability` (before the merge phase): every such
segment with at least 2 words satisfies all three budgets — duration
(floored at 1 ms) at most `max_dur_ms`, reading speed at most `max_cps`, and
text length at most `max_cpl * max_lines`.  The merge phase may afterwards
recombine short segments into multi-word segments that violate the budgets
again. -/
theorem splitPhase_budget (cfg : SubtitleConfig) (segments : List Seg) (s : Seg)
    (hmem : s ∈ splitPhase cfg segments) (hlen : 2 ≤ (segTokens s).length) :
    max 1 (s.end_ - s.start) ≤ cfg.max_dur_ms ∧
      (charsForCps (segmentText s) : ℚ) / (max 1 (s.end_ - s.start) / 1000) ≤ cfg.max_cps ∧
      (segmentText s).length ≤ cfg.max_cpl * cfg.max_lines := by
  have hc := splitPhase_mem_emitted cfg segments s hmem
  unfold splitCond at hc
  simp only [Bool.and_eq_false_iff, Bool.or_eq_false_iff, decide_eq_false_iff_not,
    not_lt, not_le] at hc
  rcases hc with ⟨⟨h1, h2⟩, h3⟩ | h4
  · exact ⟨h1, h2, h3⟩
  · omega

/-- Claim C2 (witness for the amended theorem). -/
theorem splitPhase_budget_witness :
    max 1 (segWithin.end_ - segWithin.start) ≤ defaultConfig.max_dur_ms ∧
      (charsForCps (segmentText segWithin) : ℚ) /
        (max 1 (segWithin.end_ - segWithin.start) / 1000) ≤ defaultConfig.max_cps ∧
      (segmentText segWithin).length ≤ defaultConfig.max_cpl * defaultConfig.max_lines :=
  splitPhase_budget defaultConfig [segWithin] segWithin (by decide) (by decide)

/-! ## Merge pass lemmas and claim C5 -/

theorem mergePass_cons (cfg : SubtitleConfig) (seg next : Seg) (rest : List Seg) :
    mergePass cfg (seg :: next :: rest) =
      if seg.end_ - seg.start < cfg.min_dur_ms then
        if cfg.segment_on_sentence && seg.sentence_break then
          (seg :: (mergePass cfg (next :: rest)).1, (mergePass cfg (next :: rest)).2)
        else if next.end_ - seg.start ≤ cfg.max_dur_ms then
          (mergedSeg seg next :: (mergePass cfg rest).1, true)
        else (seg :: (mergePass cfg (next :: rest)).1, (mergePass cfg (next :: rest)).2)
      else (seg :: (mergePass cfg (next :: rest)).1, (mergePass cfg (next :: rest)).2) := rfl

theorem mergePass_false_eq (cfg : SubtitleConfig) :
    ∀ l, (mergePass cfg l).2 = false → (mergePass cfg l).1 = l := by
  intro l
  induction l using mergePass.induct cfg with
  | case1 => intro _; rfl
  | case2 seg => intro _; rfl
  | case3 seg next rest h1 h2 ih =>
    rw [mergePass_cons, if_pos h1, if_pos h2]
    intro hch
    simp only at hch ⊢
    rw [ih hch]
  | case4 seg next rest h1 h2 h3 ih =>
    rw [mergePass_cons, if_pos h1, if_neg h2, if_pos h3]
    intro hch
    simp at hch
  | case5 seg next rest h1 h2 h3 ih =>
    rw [mergePass_cons, if_pos h1, if_neg h2, if_neg h3]
    intro hch
    simp only at hch ⊢
    rw [ih hch]
  | case6 seg next rest h1 ih =>
    rw [mergePass_cons, if_neg h1]
    intro hch
    simp only at hch ⊢
    rw [ih hch]

theorem mergePass_false_adjacent (cfg : SubtitleConfig) :
    ∀ l, (mergePass cfg l).2 = false →
      ∀ i s t, l.get? i = some s → l.get? (i + 1) = some t → mergeCond cfg s t = false := by
  intro l
  induction l using mergePass.induct cfg with
  | case1 =>
    intro _ i s t hs _
    simp at hs
  | case2 seg =>
    intro _ i s t _ ht
    cases i <;> simp at ht
  | case3 seg next rest h1 h2 ih =>
    rw [mergePass_cons, if_pos h1, if_pos h2]
    intro hch i s t hs ht
    cases i with
    | zero =>
      simp only [List.get?] at hs ht
      obtain rfl := Option.some_injective _ hs
      obtain rfl := Option.some_injective _ ht
      simp [mergeCond, h2]
    | succ i' => exact ih hch i' s t hs ht
  | case4 seg next rest h1 h2 h3 ih =>
    rw [mergePass_cons, if_pos h1, if_neg h2, if_pos h3]
    intro hch
    simp at hch
  | case5 seg next rest h1 h2 h3 ih =>
    rw [mergePass_cons, if_pos h1, if_neg h2, if_neg h3]
    intro hch i s t hs ht
    cases i with
    | zero =>
      simp only [List.get?] at hs ht
      obtain rfl := Option.some_injective _ hs
      obtain rfl := Option.some_injective _ ht
      simp only [mergeCond, Bool.and_eq_false_iff]
      right
      simpa using h3
    | succ i' => exact ih hch i' s t hs ht
  | case6 seg next rest h1 ih =>
    rw [mergePass_cons, if_neg h1]
    intro hch i s t hs ht
    cases i with
    | zero =>
      simp only [List.get?] at hs ht
      obtain rfl := Option.some_injective _ hs
      obtain rfl := Option.some_injective _ ht
      simp only [mergeCond, Bool.and_eq_false_iff]
      left; left
      simpa using h1
    | succ i' => exact ih hch i' s t hs ht

theorem mergePass_length (cfg : SubtitleConfig) :
    ∀ l, (mergePass cfg l).1.length ≤ l.length ∧
      ((mergePass cfg l).2 = true → (mergePass cfg l).1.length < l.length) := by
  intro l
  induction l using mergePass.induct cfg with
  | case1 => exact ⟨le_rfl, by simp [mergePass]⟩
  | case2 seg => exact ⟨le_rfl, by simp [mergePass]⟩
  | case3 seg next rest h1 h2 ih =>
    rw [mergePass_cons, if_pos h1, if_pos h2]
    constructor
    · simpa using Nat.succ_le_succ ih.1
    · intro hch
      simp only at hch
      have h' := ih.2 hch
      simp only [List.length_cons] at h' ⊢
      omega
  | case4 seg next rest h1 h2 h3 ih =>
    rw [mergePass_cons, if_pos h1, if_neg h2, if_pos h3]
    constructor
    · simp only [List.length_cons]
      have := ih.1
      omega
    · intro _
      simp only [List.length_cons]
      have := ih.1
      omega
  | case5 seg next rest h1 h2 h3 ih =>
    rw [mergePass_cons, if_pos h1, if_neg h2, if_neg h3]
    constructor
    · simpa using Nat.succ_le_succ ih.1
    · intro hch
      simp only at hch
      have h' := ih.2 hch
      simp only [List.length_cons] at h' ⊢
      omega
  | case6 seg next rest h1 ih =>
    rw [mergePass_cons, if_neg h1]
    constructor
    · simpa using Nat.succ_le_succ ih.1
    · intro hch
      simp only at hch
      have h' := ih.2 hch
      simp only [List.length_cons] at h' ⊢
      omega

theorem mergeGo_succ (cfg : SubtitleConfig) (fuel : ℕ) (l : List Seg) :
    mergeGo cfg (fuel + 1) l =
      if (mergePass cfg l).2 then mergeGo cfg fuel (mergePass cfg l).1
      else (mergePass cfg l).1 := rfl

theorem mergeGo_fixpoint (cfg : SubtitleConfig) :
    ∀ n l, l.length ≤ n → (mergePass cfg (mergeGo cfg (n + 1) l)).2 = false := by
  intro n
  induction n with
  | zero =>
    intro l hl
    have hnil : l = [] := List.length_eq_zero.mp (Nat.le_zero.mp hl)
    subst hnil
    rfl
  | succ m ih =>
    intro l hl
    by_cases hc : (mergePass cfg l).2 = true
    · rw [mergeGo_succ, if_pos hc]
      apply ih
      have hlt := (mergePass_length cfg l).2 hc
      omega
    · have hc' : (mergePass cfg l).2 = false := by
        revert hc
        cases (mergePass cfg l).2 <;> simp
      rw [mergeGo_succ, if_neg (by simp [hc'])]
      rw [mergePass_false_eq cfg l hc']
      exact hc'

/-- Claim C5: at the fixed point of the merge loop, no two adjacent final
segments can still be merged: whenever the left one has duration below
`min_dur_ms`, either sentence-boundary preservation is on and the left
segment ends at a sentence boundary, or the merged span would exceed
`max_dur_ms`. -/
theorem merge_floor (cfg : SubtitleConfig) (segments : List Seg) (i : ℕ) (s t : Seg)
    (hs : (enforceReadability segments cfg).get? i = some s)
    (ht : (enforceReadability segments cfg).get? (i + 1) = some t)
    (hdur : s.end_ - s.start < cfg.min_dur_ms) :
    (cfg.segment_on_sentence = true ∧ s.sentence_break = true) ∨
      cfg.max_dur_ms < t.end_ - s.start := by
  have hfix : (mergePass cfg (enforceReadability segments cfg)).2 = false := by
    unfold enforceReadability
    exact mergeGo_fixpoint cfg _ _ le_rfl
  have hmc := mergePass_false_adjacent cfg _ hfix i s t hs ht
  unfold mergeCond at hmc
  simp only [Bool.and_eq_false_iff, Bool.not_eq_false', Bool.and_eq_true,
    decide_eq_false_iff_not, not_lt, not_le] at hmc
  rcases hmc with (h | h) | h
  · exact absurd hdur (not_lt.mpr h)
  · exact Or.inl ⟨h.1, h.2⟩
  · exact Or.inr h

/-- Claim C5 (witness): a short segment followed by one ending at 8000 ms is
left unmerged because the merged span would exceed the default 7000 ms. -/
theorem merge_floor_witness :
    (defaultConfig.segment_on_sentence = true ∧ segShort.sentence_break = true) ∨
      defaultConfig.max_dur_ms < segFar.end_ - segShort.start :=
  merge_floor defaultConfig [segShort, segFar] 0 segShort segFar
    (by decide) (by decide) (by decide)

/-- Claim C6 (witness). -/
theorem findSplitIndex_split_termination_witness :
    ((0 < findSplitIndex wordsGood ∧ findSplitIndex wordsGood < wordsGood.length) ∧
      0 < (wordsGood.take (findSplitIndex wordsGood)).length ∧
      (wordsGood.take (findSplitIndex wordsGood)).length < wordsGood.length ∧
      0 < (wordsGood.drop (findSplitIndex wordsGood)).length ∧
      (wordsGood.drop (findSplitIndex wordsGood)).length < wordsGood.length) ∧
    splitPhase defaultConfig [segShort] = [segShort] :=
  ⟨findSplitIndex_split_termination.1 wordsGood (by decide),
    findSplitIndex_split_termination.2 defaultConfig segShort (by decide)⟩

/-! ## Structural invariants of the pipeline (towards claim C7) -/

theorem allWords_cons (s : Seg) (l : List Seg) :
    allWords (s :: l) = segTokens s ++ allWords l := by
  simp [allWords]

theorem allWords_append (a b : List Seg) :
    allWords (a ++ b) = allWords a ++ allWords b := by
  simp [allWords]

theorem foldl_max_init (xs : List ℚ) : ∀ x : ℚ, x ≤ xs.foldl max x := by
  induction xs with
  | nil => intro x; exact le_rfl
  | cons y ys ih =>
    intro x
    exact le_trans (le_max_left x y) (ih (max x y))

theorem foldl_max_mem (xs : List ℚ) : ∀ x a, a ∈ xs → a ≤ xs.foldl max x := by
  induction xs with
  | nil => intro x a ha; exact absurd ha (List.not_mem_nil a)
  | cons y ys ih =>
    intro x a ha
    rcases List.mem_cons.mp ha with rfl | ha'
    · exact le_trans (le_max_right x a) (foldl_max_init ys (max x a))
    · exact ih (max x y) a ha'

theorem le_maxOf (l : List ℚ) (d : ℚ) (a : ℚ) (ha : a ∈ l) : a ≤ maxOf l d := by
  cases l with
  | nil => exact absurd ha (List.not_mem_nil a)
  | cons x xs =>
    rcases List.mem_cons.mp ha with rfl | ha'
    · exact foldl_max_init xs a
    · exact foldl_max_mem xs x a ha'

theorem closeSegment_current_nil (b : Bool) (st : SegState) :
    (closeSegment b st).current = [] := by
  unfold closeSegment
  split
  · next h => exact h
  · dsimp only
    split <;> rfl

theorem closeSegment_lastTokenEnd (b : Bool) (st : SegState) (h : st.current ≠ []) :
    (closeSegment b st).lastTokenEnd = none := by
  unfold closeSegment
  split
  · next h' => exact absurd h' h
  · dsimp only
    split <;> rfl

theorem closeSegment_segOk (b : Bool) (st : SegState)
    (h1 : ∀ s ∈ st.segments, segOk s)
    (h3 : st.current ≠ [] → ∃ v rest, st.current = v :: rest ∧ st.currentStart = some v.start_ms)
    (hwf : ∀ w ∈ st.current, w.start_ms ≤ w.end_ms) :
    ∀ s ∈ (closeSegment b st).segments, segOk s := by
  unfold closeSegment
  split
  · exact h1
  · next hne =>
    dsimp only
    split
    · exact h1
    · intro s hs
      simp only at hs
      rcases List.mem_append.mp hs with hold | hnew
      · exact h1 s hold
      · obtain ⟨v, rest, hcur, hstart⟩ := h3 hne
        have hveq : s = ⟨st.currentStart.getD 0,
            maxOf (st.current.map Word.end_ms) (st.currentStart.getD 0),
            firstNonEmpty (st.current.map Word.speaker), some st.current, none, b,
            false, false⟩ := by
          simpa using hnew
        subst hveq
        refine ⟨v, rest, ?_, ?_, ?_⟩
        · simpa using hcur
        · simp [hstart]
        · simp only
          have hmem : v.end_ms ∈ st.current.map Word.end_ms := by
            rw [hcur]; exact List.mem_map_of_mem _ (List.mem_cons_self _ _)
          have hle := le_maxOf _ (st.currentStart.getD 0) _ hmem
          have hwfv : v.start_ms ≤ v.end_ms := hwf v (by rw [hcur]; exact List.mem_cons_self _ _)
          calc st.currentStart.getD 0 = v.start_ms := by simp [hstart]
            _ ≤ v.end_ms := hwfv
            _ ≤ _ := hle

theorem closeSegment_words (b : Bool) (st : SegState) :
    (allWords (closeSegment b st).segments ++ (closeSegment b st).current).Sublist
      (allWords st.segments ++ st.current) := by
  unfold closeSegment
  split
  · exact List.Sublist.refl _
  · dsimp only
    split
    · simp only [List.append_nil]
      exact List.sublist_append_left _ _
    · simp only [allWords_append, allWords_cons]
      simp [allWords, segTokens]

theorem closeSegment_inv (ws tail : List Word) (hWF : wordsWF ws) (b : Bool) (st : SegState)
    (h : stInv ws tail st) : stInv ws tail (closeSegment b st) := by
  obtain ⟨h1, h2, h3⟩ := h
  have hwf : ∀ w ∈ st.current, w.start_ms ≤ w.end_ms := by
    intro w hw
    refine hWF.1 w (h2.subset ?_)
    exact List.mem_append_left _ (List.mem_append_right _ hw)
  refine ⟨closeSegment_segOk b st h1 h3 hwf, ?_, ?_⟩
  · exact ((closeSegment_words b st).append_right tail).trans h2
  · intro hc
    rw [closeSegment_current_nil] at hc
    exact absurd rfl hc

theorem segSpeakerPhase_inv (ws tail : List Word) (hWF : wordsWF ws) (sos : Bool)
    (st : SegState) (w : Word) (h : stInv ws tail st) :
    stInv ws tail (segSpeakerPhase sos st w) := by
  unfold segSpeakerPhase
  split
  · exact closeSegment_inv ws tail hWF false st h
  · exact h

theorem segGapPhase_inv (ws tail : List Word) (hWF : wordsWF ws) (gap : ℚ)
    (st : SegState) (w : Word) (h : stInv ws tail st) :
    stInv ws tail (segGapPhase gap st w) := by
  unfold segGapPhase
  split
  · dsimp only
    split
    · split
      · split
        · exact closeSegment_inv ws tail hWF false st h
        · exact h
      · exact h
    · exact h
  · exact h

theorem segAppendCore_inv (ws tail : List Word) (st : SegState) (w : Word)
    (h : stInv ws (w :: tail) st) : stInv ws tail (segAppendCore st w) := by
  obtain ⟨h1, h2, h3⟩ := h
  refine ⟨h1, ?_, ?_⟩
  · have heq : (allWords (segAppendCore st w).segments ++ (segAppendCore st w).current) ++ tail
        = (allWords st.segments ++ st.current) ++ (w :: tail) := by
      simp [segAppendCore]
    rw [heq]
    exact h2
  · intro _
    by_cases hcur : st.current = []
    · exact ⟨w, [], by simp [segAppendCore, hcur], by simp [segAppendCore, hcur]⟩
    · obtain ⟨v, rest, hc, hs⟩ := h3 hcur
      refine ⟨v, rest ++ [w], ?_, ?_⟩
      · simp [segAppendCore, hc]
      · simp [segAppendCore, hcur, hs]

theorem segAppendPhase_inv (ws tail : List Word) (hWF : wordsWF ws) (son : Bool)
    (st : SegState) (w : Word) (h : stInv ws (w :: tail) st) :
    stInv ws tail (segAppendPhase son st w) := by
  have hcore := segAppendCore_inv ws tail st w h
  unfold segAppendPhase
  dsimp only
  split
  · exact closeSegment_inv ws tail hWF true _ hcore
  · exact hcore

theorem segStep_inv (ws tail : List Word) (hWF : wordsWF ws) (gap : ℚ) (sos son : Bool)
    (st : SegState) (w : Word) (h : stInv ws (w :: tail) st) :
    stInv ws tail (segStep gap sos son st w) :=
  segAppendPhase_inv ws tail hWF son _ w
    (segGapPhase_inv ws (w :: tail) hWF gap _ w
      (segSpeakerPhase_inv ws (w :: tail) hWF sos st w h))

theorem foldl_segStep_inv (ws : List Word) (hWF : wordsWF ws) (gap : ℚ) (sos son : Bool) :
    ∀ (suf : List Word) (st : SegState), stInv ws suf st →
      stInv ws [] (suf.foldl (segStep gap sos son) st) := by
  intro suf
  induction suf with
  | nil => intro st h; exact h
  | cons w suf' ih =>
    intro st h
    exact ih _ (segStep_inv ws suf' hWF gap sos son st w h)

theorem buildSegments_inv (ws : List Word) (hWF : wordsWF ws) (gap : ℚ) (sos son : Bool) :
    (∀ s ∈ buildSegments ws gap sos son, segOk s) ∧
      (allWords (buildSegments ws gap sos son)).Sublist ws := by
  have h0 : stInv ws ws segInit := by
    refine ⟨?_, ?_, ?_⟩
    · intro s hs
      exact absurd hs (List.not_mem_nil s)
    · simp [segInit, allWords]
    · intro hc
      exact absurd rfl hc
  have hf := foldl_segStep_inv ws hWF gap sos son ws segInit h0
  have hcl := closeSegment_inv ws [] hWF false _ hf
  obtain ⟨c1, c2, _⟩ := hcl
  refine ⟨c1, ?_⟩
  rw [closeSegment_current_nil, List.append_nil, List.append_nil] at c2
  exact c2

theorem slice_head_start_le_last_end (ws : List Word) (hWF : wordsWF ws)
    (part : List Word) (hsub : part.Sublist ws) (w : Word) (rest : List Word)
    (hcons : part = w :: rest) (lw : Word) (hlast : part.getLast? = some lw) :
    w.start_ms ≤ lw.end_ms := by
  have hsorted : List.Pairwise (fun a b => a.start_ms ≤ b.start_ms) part :=
    List.Pairwise.sublist hsub hWF.2
  have hmem : lw ∈ part := List.mem_of_getLast?_eq_some hlast
  have h1 : w.start_ms ≤ lw.start_ms := by
    rw [hcons] at hsorted hmem
    rcases List.mem_cons.mp hmem with rfl | hm
    · exact le_rfl
    · exact List.rel_of_pairwise_cons hsorted hm
  have h2 : lw.start_ms ≤ lw.end_ms := hWF.1 lw (hsub.subset hmem)
  linarith

theorem segOk_of_slice (ws : List Word) (hWF : wordsWF ws) (part : List Word)
    (hsub : part.Sublist ws) (hne : part ≠ []) (s : Seg) (d1 d2 : ℚ)
    (htok : s.tokens = some part)
    (hstart : s.start = ((part.head?).map Word.start_ms).getD d1)
    (hend : s.end_ = ((part.getLast?).map Word.end_ms).getD d2) :
    segOk s := by
  obtain ⟨w, rest, hcons⟩ := List.exists_cons_of_ne_nil hne
  rcases hlast : part.getLast? with _ | lw
  · rw [List.getLast?_eq_none_iff] at hlast
    exact absurd hlast hne
  · refine ⟨w, rest, by rw [htok, hcons], ?_, ?_⟩
    · rw [hstart, hcons]
      rfl
    · have hle := slice_head_start_le_last_end ws hWF part hsub w rest hcons lw hlast
      have hs : s.start = w.start_ms := by rw [hstart, hcons]; rfl
      have he : s.end_ = lw.end_ms := by rw [hend, hlast]; rfl
      rw [hs, he]
      exact hle

theorem splitChildren_left_start (cfg : SubtitleConfig) (s : Seg) (idx : ℕ) :
    (splitChildren cfg s idx).1.start =
      ((((segTokens s).take idx).head?).map Word.start_ms).getD s.start ∧
    (splitChildren cfg s idx).1.end_ =
      ((((segTokens s).take idx).getLast?).map Word.end_ms).getD s.end_ ∧
    (splitChildren cfg s idx).2.start =
      ((((segTokens s).drop idx).head?).map Word.start_ms).getD s.start ∧
    (splitChildren cfg s idx).2.end_ =
      ((((segTokens s).drop idx).getLast?).map Word.end_ms).getD s.end_ :=
  ⟨rfl, rfl, rfl, rfl⟩

theorem splitGo_words (cfg : SubtitleConfig) :
    ∀ fuel q, (allWords (splitGo cfg fuel q)).Sublist (allWords q) := by
  intro fuel
  induction fuel with
  | zero =>
    intro q
    simp only [splitGo]
    exact List.nil_sublist _
  | succ n ih =>
    intro q
    cases q with
    | nil =>
      rw [splitGo_nil]
    | cons s q' =>
      by_cases hc : splitCond cfg s = true
      · rw [splitGo_cons, hc, if_pos rfl]
        have heq : allWords ((splitChildren cfg s (findSplitIndex (segTokens s))).1 ::
            (splitChildren cfg s (findSplitIndex (segTokens s))).2 :: q') = allWords (s :: q') := by
          rw [allWords_cons, allWords_cons, allWords_cons]
          show (segTokens s).take _ ++ ((segTokens s).drop _ ++ allWords q') = _
          rw [← List.append_assoc, List.take_append_drop]
        exact heq ▸ ih _
      · have hc' : splitCond cfg s = false := by
          revert hc
          cases splitCond cfg s <;> simp
        rw [splitGo_cons, hc', if_neg (by simp)]
        rw [allWords_cons, allWords_cons]
        exact (ih q').append_left _

theorem splitGo_segOk (cfg : SubtitleConfig) (ws : List Word) (hWF : wordsWF ws) :
    ∀ fuel q, (∀ s ∈ q, segOk s) → (allWords q).Sublist ws →
      ∀ s' ∈ splitGo cfg fuel q, segOk s' := by
  intro fuel
  induction fuel with
  | zero =>
    intro q _ _ s' hs'
    simp only [splitGo] at hs'
    exact absurd hs' (List.not_mem_nil s')
  | succ n ih =>
    intro q hok hsub s' hs'
    cases q with
    | nil =>
      rw [splitGo_nil] at hs'
      exact absurd hs' (List.not_mem_nil s')
    | cons s q' =>
      have htoks : (segTokens s).Sublist ws := by
        refine List.Sublist.trans ?_ hsub
        rw [allWords_cons]
        exact List.sublist_append_left _ _
      by_cases hc : splitCond cfg s = true
      · rw [splitGo_cons, hc, if_pos rfl] at hs'
        have h2 := splitCond_two_le cfg s hc
        have hidx := findSplitIndex_bounds _ h2
        have hLne : (segTokens s).take (findSplitIndex (segTokens s)) ≠ [] := by
          intro hh
          have hz : ((segTokens s).take (findSplitIndex (segTokens s))).length = 0 := by
            rw [hh]; rfl
          rw [List.length_take] at hz
          omega
        have hRne : (segTokens s).drop (findSplitIndex (segTokens s)) ≠ [] := by
          intro hh
          have hz : ((segTokens s).drop (findSplitIndex (segTokens s))).length = 0 := by
            rw [hh]; rfl
          rw [List.length_drop] at hz
          omega
        have hOkL : segOk (splitChildren cfg s (findSplitIndex (segTokens s))).1 := by
          obtain ⟨e1, e2, _, _⟩ := splitChildren_left_start cfg s (findSplitIndex (segTokens s))
          exact segOk_of_slice ws hWF _ ((List.take_sublist _ _).trans htoks) hLne _ _ _ rfl e1 e2
        have hOkR : segOk (splitChildren cfg s (findSplitIndex (segTokens s))).2 := by
          obtain ⟨_, _, e3, e4⟩ := splitChildren_left_start cfg s (findSplitIndex (segTokens s))
          exact segOk_of_slice ws hWF _ ((List.drop_sublist _ _).trans htoks) hRne _ _ _ rfl e3 e4
        refine ih _ ?_ ?_ s' hs'
        · intro u hu
          rcases List.mem_cons.mp hu with rfl | hu'
          · exact hOkL
          rcases List.mem_cons.mp hu' with rfl | hu''
          · exact hOkR
          · exact hok u (List.mem_cons_of_mem _ hu'')
        · have heq : allWords ((splitChildren cfg s (findSplitIndex (segTokens s))).1 ::
              (splitChildren cfg s (findSplitIndex (segTokens s))).2 :: q')
                = allWords (s :: q') := by
            rw [allWords_cons, allWords_cons, allWords_cons]
            show (segTokens s).take _ ++ ((segTokens s).drop _ ++ allWords q') = _
            rw [← List.append_assoc, List.take_append_drop]
          rw [heq]
          exact hsub
      · have hc' : splitCond cfg s = false := by
          revert hc
          cases splitCond cfg s <;> simp
        rw [splitGo_cons, hc', if_neg (by simp)] at hs'
        rcases List.mem_cons.mp hs' with rfl | hs''
        · exact hok s' (List.mem_cons_self _ _)
        · refine ih q' (fun u hu => hok u (List.mem_cons_of_mem _ hu)) ?_ s' hs''
          refine List.Sublist.trans ?_ hsub
          rw [allWords_cons]
          exact List.sublist_append_right _ _

theorem splitPhase_words (cfg : SubtitleConfig) :
    ∀ segments, (allWords (splitPhase cfg segments)).Sublist (allWords segments) := by
  intro segments
  induction segments with
  | nil =>
    simp [splitPhase, allWords]
  | cons s rest ih =>
    have hcons : splitPhase cfg (s :: rest) =
        splitGo cfg (splitMeasure [s]) [s] ++ splitPhase cfg rest := by
      simp [splitPhase]
    rw [hcons, allWords_append, allWords_cons]
    have h1 : (allWords (splitGo cfg (splitMeasure [s]) [s])).Sublist (segTokens s) := by
      have := splitGo_words cfg (splitMeasure [s]) [s]
      rw [allWords_cons] at this
      simpa [allWords] using this
    exact List.Sublist.append h1 ih

theorem mem_allWords_sublist (seg : Seg) :
    ∀ l, seg ∈ l → (segTokens seg).Sublist (allWords l) := by
  intro l
  induction l with
  | nil =>
    intro hmem
    exact absurd hmem (List.not_mem_nil seg)
  | cons a rest ih =>
    intro hmem
    rw [allWords_cons]
    rcases List.mem_cons.mp hmem with rfl | hm
    · exact List.sublist_append_left _ _
    · exact (ih hm).trans (List.sublist_append_right _ _)

theorem splitPhase_segOk (cfg : SubtitleConfig) (ws : List Word) (hWF : wordsWF ws)
    (segments : List Seg) (hok : ∀ s ∈ segments, segOk s)
    (hsub : (allWords segments).Sublist ws) :
    ∀ s' ∈ splitPhase cfg segments, segOk s' := by
  intro s' hs'
  unfold splitPhase at hs'
  rw [List.mem_flatten] at hs'
  obtain ⟨l, hl, hsl⟩ := hs'
  rw [List.mem_map] at hl
  obtain ⟨seg, hseg, rfl⟩ := hl
  have hsegsub : (segTokens seg).Sublist (allWords segments) :=
    mem_allWords_sublist seg segments hseg
  refine splitGo_segOk cfg ws hWF _ [seg] ?_ ?_ s' hsl
  · intro u hu
    rcases List.mem_cons.mp hu with rfl | hu'
    · exact hok _ hseg
    · exact absurd hu' (List.not_mem_nil u)
  · have : allWords [seg] = segTokens seg := by simp [allWords]
    rw [this]
    exact hsegsub.trans hsub

theorem mergePass_allWords (cfg : SubtitleConfig) :
    ∀ l, allWords (mergePass cfg l).1 = allWords l := by
  intro l
  induction l using mergePass.induct cfg with
  | case1 => rfl
  | case2 seg => rfl
  | case3 seg next rest h1 h2 ih =>
    rw [mergePass_cons, if_pos h1, if_pos h2]
    simp only
    rw [allWords_cons, allWords_cons, ih]
  | case4 seg next rest h1 h2 h3 ih =>
    rw [mergePass_cons, if_pos h1, if_neg h2, if_pos h3]
    simp only
    rw [allWords_cons, allWords_cons, allWords_cons, ih]
    show (segTokens seg ++ segTokens next) ++ allWords rest = _
    rw [List.append_assoc]
  | case5 seg next rest h1 h2 h3 ih =>
    rw [mergePass_cons, if_pos h1, if_neg h2, if_neg h3]
    simp only
    rw [allWords_cons, allWords_cons, ih]
  | case6 seg next rest h1 ih =>
    rw [mergePass_cons, if_neg h1]
    simp only
    rw [allWords_cons, allWords_cons, ih]

theorem mergePass_segOk (cfg : SubtitleConfig) (ws : List Word) (hWF : wordsWF ws) :
    ∀ l, (∀ s ∈ l, segOk s) → (allWords l).Sublist ws →
      ∀ s ∈ (mergePass cfg l).1, segOk s := by
  intro l
  induction l using mergePass.induct cfg with
  | case1 =>
    intro _ _ s hs
    exact absurd hs (List.not_mem_nil s)
  | case2 seg =>
    intro hok _ s hs
    exact hok s hs
  | case3 seg next rest h1 h2 ih =>
    rw [mergePass_cons, if_pos h1, if_pos h2]
    intro hok hsub s hs
    simp only at hs
    rcases List.mem_cons.mp hs with rfl | hs'
    · exact hok s (List.mem_cons_self _ _)
    · refine ih (fun u hu => hok u (List.mem_cons_of_mem _ hu)) ?_ s hs'
      refine List.Sublist.trans ?_ hsub
      rw [allWords_cons]
      exact List.sublist_append_right _ _
  | case4 seg next rest h1 h2 h3 ih =>
    rw [mergePass_cons, if_pos h1, if_neg h2, if_pos h3]
    intro hok hsub s hs
    simp only at hs
    rcases List.mem_cons.mp hs with rfl | hs'
    · obtain ⟨w, r1, ht1, hs1, he1⟩ := hok seg (List.mem_cons_self _ _)
      obtain ⟨w', r2, ht2, hs2, he2⟩ :=
        hok next (List.mem_cons_of_mem _ (List.mem_cons_self _ _))
      have hta : segTokens seg = w :: r1 := by simp [segTokens, ht1]
      have htb : segTokens next = w' :: r2 := by simp [segTokens, ht2]
      have hP : List.Pairwise (fun a b => a.start_ms ≤ b.start_ms)
          (allWords (seg :: next :: rest)) := List.Pairwise.sublist hsub hWF.2
      rw [allWords_cons, allWords_cons, hta, htb, List.cons_append] at hP
      have hw' : w' ∈ r1 ++ ((w' :: r2) ++ allWords rest) := by
        refine List.mem_append_right _ ?_
        rw [List.cons_append]
        exact List.mem_cons_self _ _
      have hww' : w.start_ms ≤ w'.start_ms := List.rel_of_pairwise_cons hP hw'
      refine ⟨w, r1 ++ segTokens next, ?_, ?_, ?_⟩
      · show some (segTokens seg ++ segTokens next) = _
        rw [hta, List.cons_append]
      · exact hs1
      · show seg.start ≤ next.end_
        calc seg.start = w.start_ms := hs1
          _ ≤ w'.start_ms := hww'
          _ = next.start := hs2.symm
          _ ≤ next.end_ := he2
    · refine ih (fun u hu =>
        hok u (List.mem_cons_of_mem _ (List.mem_cons_of_mem _ hu))) ?_ s hs'
      refine List.Sublist.trans ?_ hsub
      rw [allWords_cons, allWords_cons]
      exact (List.sublist_append_right _ _).trans (List.sublist_append_right _ _)
  | case5 seg next rest h1 h2 h3 ih =>
    rw [mergePass_cons, if_pos h1, if_neg h2, if_neg h3]
    intro hok hsub s hs
    simp only at hs
    rcases List.mem_cons.mp hs with rfl | hs'
    · exact hok s (List.mem_cons_self _ _)
    · refine ih (fun u hu => hok u (List.mem_cons_of_mem _ hu)) ?_ s hs'
      refine List.Sublist.trans ?_ hsub
      rw [allWords_cons]
      exact List.sublist_append_right _ _
  | case6 seg next rest h1 ih =>
    rw [mergePass_cons, if_neg h1]
    intro hok hsub s hs
    simp only at hs
    rcases List.mem_cons.mp hs with rfl | hs'
    · exact hok s (List.mem_cons_self _ _)
    · refine ih (fun u hu => hok u (List.mem_cons_of_mem _ hu)) ?_ s hs'
      refine List.Sublist.trans ?_ hsub
      rw [allWords_cons]
      exact List.sublist_append_right _ _

theorem mergeGo_inv (cfg : SubtitleConfig) (ws : List Word) (hWF : wordsWF ws) :
    ∀ fuel l, (∀ s ∈ l, segOk s) → (allWords l).Sublist ws →
      (∀ s ∈ mergeGo cfg fuel l, segOk s) ∧ (allWords (mergeGo cfg fuel l)).Sublist ws := by
  intro fuel
  induction fuel with
  | zero =>
    intro l hok hsub
    exact ⟨hok, hsub⟩
  | succ n ih =>
    intro l hok hsub
    have hok' : ∀ s ∈ (mergePass cfg l).1, segOk s := mergePass_segOk cfg ws hWF l hok hsub
    have hsub' : (allWords (mergePass cfg l).1).Sublist ws := by
      rw [mergePass_allWords]
      exact hsub
    by_cases hc : (mergePass cfg l).2 = true
    · rw [mergeGo_succ, if_pos hc]
      exact ih _ hok' hsub'
    · rw [mergeGo_succ, if_neg hc]
      exact ⟨hok', hsub'⟩

theorem segs_adjacent_starts (ws : List Word) (hWF : wordsWF ws) :
    ∀ l, (∀ s ∈ l, segOk s) → (allWords l).Sublist ws →
      ∀ i s t, l.get? i = some s → l.get? (i + 1) = some t → s.start ≤ t.start := by
  intro l
  induction l with
  | nil =>
    intro _ _ i s t hs _
    simp at hs
  | cons a l' ih =>
    intro hok hsub i s t hs ht
    cases l' with
    | nil =>
      cases i <;> simp at ht
    | cons b r =>
      cases i with
      | zero =>
        simp only [List.get?] at hs ht
        have hsa : s = a := (Option.some_injective _ hs).symm
        have htb' : t = b := (Option.some_injective _ ht).symm
        rw [hsa, htb']
        obtain ⟨w, r1, ht1, hs1, _⟩ := hok a (List.mem_cons_self _ _)
        obtain ⟨w', r2, ht2, hs2, _⟩ :=
          hok b (List.mem_cons_of_mem _ (List.mem_cons_self _ _))
        have hta : segTokens a = w :: r1 := by simp [segTokens, ht1]
        have htb : segTokens b = w' :: r2 := by simp [segTokens, ht2]
        have hP : List.Pairwise (fun u v => u.start_ms ≤ v.start_ms)
            (allWords (a :: b :: r)) := List.Pairwise.sublist hsub hWF.2
        rw [allWords_cons, allWords_cons, hta, htb, List.cons_append] at hP
        have hw' : w' ∈ r1 ++ ((w' :: r2) ++ allWords r) := by
          refine List.mem_append_right _ ?_
          rw [List.cons_append]
          exact List.mem_cons_self _ _
        have hww' := List.rel_of_pairwise_cons hP hw'
        rw [hs1, hs2]
        exact hww'
      | succ i' =>
        refine ih (fun u hu => hok u (List.mem_cons_of_mem _ hu)) ?_ i' s t hs ht
        refine List.Sublist.trans ?_ hsub
        rw [allWords_cons]
        exact List.sublist_append_right _ _

/-! ## Claim C7: monotonicity -/

/-- Claim C7 (counterexample): a transcript token with `end_ms < start_ms`
yields a final segment with `end < start`, so the claim quantified over every
input is false. -/
theorem pipeline_monotonicity_counterexample :
    ∃ s ∈ tokensToSubtitleSegments [tokBad] defaultConfig, s.end_ < s.start := by
  decide

/-- Claim C7 (amended): for every configuration and every *well-formed* word
stream (each word has `start_ms ≤ end_ms` and start times are nondecreasing),
the final segments produced by `buildSegments` followed by
`enforceReadability` have nondecreasing start times, and no segment has
`end < start`.  The amendment adds the well-formedness hypothesis, without
which a degenerate token (see the counterexample) violates the claim. -/
theorem pipeline_monotonicity_amended (ws : List Word) (gap : ℚ) (sos son : Bool)
    (cfg : SubtitleConfig) (hWF : wordsWF ws) :
    (∀ i s t, (enforceReadability (buildSegments ws gap sos son) cfg).get? i = some s →
      (enforceReadability (buildSegments ws gap sos son) cfg).get? (i + 1) = some t →
      s.start ≤ t.start) ∧
    (∀ s ∈ enforceReadability (buildSegments ws gap sos son) cfg, s.start ≤ s.end_) := by
  obtain ⟨hok0, hsub0⟩ := buildSegments_inv ws hWF gap sos son
  have hokS := splitPhase_segOk cfg ws hWF _ hok0 hsub0
  have hsubS := (splitPhase_words cfg (buildSegments ws gap sos son)).trans hsub0
  have henf : enforceReadability (buildSegments ws gap sos son) cfg =
      mergeGo cfg ((splitPhase cfg (buildSegments ws gap sos son)).length + 1)
        (splitPhase cfg (buildSegments ws gap sos son)) := rfl
  rw [henf]
  obtain ⟨hokM, hsubM⟩ := mergeGo_inv cfg ws hWF _ _ hokS hsubS
  constructor
  · exact segs_adjacent_starts ws hWF _ hokM hsubM
  · intro s hs
    obtain ⟨w, r, _, _, hend⟩ := hokM s hs
    exact hend

/-- Claim C7 (witness for the amended theorem). -/
theorem pipeline_monotonicity_witness :
    segGap1.start ≤ segGap2.start ∧
      (∀ s ∈ enforceReadability (buildSegments wordsGap 1200 false false) defaultConfig,
        s.start ≤ s.end_) :=
  ⟨(pipeline_monotonicity_amended wordsGap 1200 false false defaultConfig (by exact ⟨by decide, by decide⟩)).1
      0 segGap1 segGap2 (by decide) (by decide),
    (pipeline_monotonicity_amended wordsGap 1200 false false defaultConfig
      (by exact ⟨by decide, by decide⟩)).2⟩

/-! ## Claim C8: the silence-gap close -/

theorem closeSegment_of_nil (b : Bool) (st : SegState) (h : st.current = []) :
    closeSegment b st = st := by
  unfold closeSegment
  rw [if_pos h]

theorem segSpeakerPhase_cases (sos : Bool) (st : SegState) (w : Word) :
    segSpeakerPhase sos st w = closeSegment false st ∨ segSpeakerPhase sos st w = st := by
  unfold segSpeakerPhase
  split
  · exact Or.inl rfl
  · exact Or.inr rfl

theorem segSpeakerPhase_of_nil (sos : Bool) (st : SegState) (w : Word)
    (h : st.current = []) : segSpeakerPhase sos st w = st := by
  unfold segSpeakerPhase
  split
  · next hcond =>
    rw [h] at hcond
    simp at hcond
  · rfl

theorem segGapPhase_of_none (gap : ℚ) (st : SegState) (w : Word)
    (h : st.lastTokenEnd = none) : segGapPhase gap st w = st := by
  unfold segGapPhase
  rw [h]

theorem segGapPhase_fires (gap : ℚ) (st : SegState) (w : Word) (e : ℚ)
    (hcur : st.current ≠ []) (hlast : st.lastTokenEnd = some e)
    (hpos : 0 < gap) (hgap : gap < w.start_ms - e)
    (hsafe : safeBoundary (((st.current.getLast?).map Word.text).getD []) w.text = true) :
    segGapPhase gap st w = closeSegment false st := by
  unfold segGapPhase
  rw [hlast]
  dsimp only
  rw [if_pos hcur]
  have hcond : (decide (gap > 0) && decide (w.start_ms - e > gap)) = true := by
    rw [Bool.and_eq_true, decide_eq_true_eq, decide_eq_true_eq]
    exact ⟨hpos, hgap⟩
  rw [if_pos hcond, if_pos hsafe]

/-- Claim C8 (counterexample): with a configured gap threshold of 0 and a
positive gap over a safe boundary, the code does *not* close the pending
segment before appending (the source additionally requires
`gapThreshold > 0`), so the claim as stated is false. -/
theorem gap_close_counterexample :
    segStep 0 false false stPending wordSpB ≠
      segStep 0 false false (closeSegment false stPending) wordSpB := by
  decide

/-- Claim C8 (amended): during segmentation, for every word arriving at a
state with a nonempty open segment, if the gap between the previous word's
end and the current word's start exceeds the configured gap threshold, *the
threshold is positive*, and the boundary is safe, then the step closes the
current segment before appending the word: processing the word equals first
closing the pending segment and then processing the word. -/
theorem gap_close_amended (gap : ℚ) (sos son : Bool) (st : SegState) (w : Word) (e : ℚ)
    (hcur : st.current ≠ []) (hlast : st.lastTokenEnd = some e)
    (hpos : 0 < gap) (hgap : gap < w.start_ms - e)
    (hsafe : safeBoundary (((st.current.getLast?).map Word.text).getD []) w.text = true) :
    segStep gap sos son st w = segStep gap sos son (closeSegment false st) w := by
  have hclosedCur := closeSegment_current_nil false st
  have hclosedLast := closeSegment_lastTokenEnd false st hcur
  have hLHS : segGapPhase gap (segSpeakerPhase sos st w) w = closeSegment false st := by
    rcases segSpeakerPhase_cases sos st w with hsp | hsp <;> rw [hsp]
    · exact segGapPhase_of_none gap _ w hclosedLast
    · exact segGapPhase_fires gap st w e hcur hlast hpos hgap hsafe
  have hRHS : segGapPhase gap (segSpeakerPhase sos (closeSegment false st) w) w =
      closeSegment false st := by
    rw [segSpeakerPhase_of_nil sos _ w hclosedCur]
    exact segGapPhase_of_none gap _ w hclosedLast
  show segAppendPhase son _ w = segAppendPhase son _ w
  rw [hLHS, hRHS]

/-- Claim C8 (witness for the amended theorem). -/
theorem gap_close_witness :
    segStep 50 false false stPending wordSpB =
      segStep 50 false false (closeSegment false stPending) wordSpB :=
  gap_close_amended 50 false false stPending wordSpB 0 (by decide) (by decide)
    (by decide) (by decide) (by decide)

/-! ## Claim C1: word-assembler conservation -/

theorem flushWord_currentTokens (σ : AsmState) : (flushWord σ).currentTokens = [] := by
  unfold flushWord
  split
  · next h => exact h
  · rfl

theorem flushWord_good (σ : AsmState) (h : asmGood σ) : asmGood (flushWord σ) := by
  unfold flushWord
  split
  · exact h
  · intro _
    exact ⟨rfl, rfl⟩

theorem flushWord_outInner (σ : AsmState) : outInner (flushWord σ) = outInner σ := by
  unfold flushWord outInner
  split
  · rfl
  · simp

theorem flushWord_outText (σ : AsmState) : outText (flushWord σ) = outText σ := by
  unfold flushWord outText
  split
  · rfl
  · simp

theorem addToCurrent_outInner (σ : AsmState) (t : Token) (part : Str) (pfx : Bool) :
    outInner (addToCurrent σ t part pfx) = outInner σ ++ [t] := by
  unfold outInner addToCurrent
  simp

theorem addToCurrent_outText (σ : AsmState) (t : Token) (part : Str) (pfx : Bool)
    (hGood : asmGood σ) :
    outText (addToCurrent σ t part pfx) =
      outText σ ++ (if σ.currentTokens = [] ∧ pfx = true then [' '] else []) ++ part := by
  unfold outText addToCurrent
  by_cases hc : σ.currentTokens = []
  · obtain ⟨hct, hpf⟩ := hGood hc
    cases pfx <;> simp [hc, hct, hpf]
  · simp [hc]

theorem addToCurrent_good (σ : AsmState) (t : Token) (part : Str) (pfx : Bool) :
    asmGood (addToCurrent σ t part pfx) := by
  intro h
  exfalso
  simp [addToCurrent] at h

theorem stepvia_preflush (σ : AsmState) (t : Token) (part : Str) (pfx : Bool)
    (hGood : asmGood σ) :
    outInner (addToCurrent (flushWord σ) t part pfx) = outInner σ ++ [t] ∧
    outText (addToCurrent (flushWord σ) t part pfx) =
      outText σ ++ (if pfx then [' '] else []) ++ part := by
  constructor
  · rw [addToCurrent_outInner, flushWord_outInner]
  · rw [addToCurrent_outText _ _ _ _ (flushWord_good σ hGood), flushWord_outText,
      flushWord_currentTokens]
    cases pfx <;> simp

theorem stepvia_direct (σ : AsmState) (t : Token) (part : Str) (hGood : asmGood σ) :
    outInner (addToCurrent σ t part false) = outInner σ ++ [t] ∧
    outText (addToCurrent σ t part false) = outText σ ++ part := by
  constructor
  · rw [addToCurrent_outInner]
  · rw [addToCurrent_outText _ _ _ _ hGood]
    simp

theorem trimStart_cons_of_not_ws (c : Char) (l : Str) (h : ¬ isWs c = true) :
    trimStart (c :: l) = c :: l := by
  simp [trimStart, h]

theorem asmStep_spec (σ : AsmState) (t : Token) (hGood : asmGood σ) :
    outInner (asmStep σ t) = outInner σ ++ (if t.text = [] then [] else [t]) ∧
    outText (asmStep σ t) = outText σ ++ normText t ∧
    asmGood (asmStep σ t) := by
  unfold asmStep normText
  cases ht : t.text with
  | nil =>
    dsimp only
    exact ⟨by simp, by simp, hGood⟩
  | cons c rest =>
    dsimp only
    rw [if_neg (by simp : ¬ (c :: rest) = ([] : Str))]
    set cl : Str := trimStart (c :: rest) with hcl
    have hfinish : ∀ σ' : AsmState,
        outInner σ' = outInner σ ++ [t] →
        outText σ' = outText σ ++ (if isWs c = true then ' ' :: cl else (c :: rest)) →
        asmGood σ' →
        outInner (if (cl ≠ [] && ((cl.getLast?.getD ' ' ∈ SENTENCE_ENDERS) ||
            (cl.getLast?.getD ' ' ∈ MINOR_BREAKERS) ||
            (containsCjk cl && cl.length = 1))) = true then flushWord σ' else σ') =
          outInner σ ++ [t] ∧
        outText (if (cl ≠ [] && ((cl.getLast?.getD ' ' ∈ SENTENCE_ENDERS) ||
            (cl.getLast?.getD ' ' ∈ MINOR_BREAKERS) ||
            (containsCjk cl && cl.length = 1))) = true then flushWord σ' else σ') =
          outText σ ++ (if isWs c = true then ' ' :: cl else (c :: rest)) ∧
        asmGood (if (cl ≠ [] && ((cl.getLast?.getD ' ' ∈ SENTENCE_ENDERS) ||
            (cl.getLast?.getD ' ' ∈ MINOR_BREAKERS) ||
            (containsCjk cl && cl.length = 1))) = true then flushWord σ' else σ') := by
      intro σ' hi htx hg
      split
      · exact ⟨by rw [flushWord_outInner, hi], by rw [flushWord_outText, htx],
          flushWord_good _ hg⟩
      · exact ⟨hi, htx, hg⟩
    by_cases hws : isWs c = true
    · rw [if_pos hws]
      obtain ⟨hi, htx⟩ := stepvia_preflush σ t cl true hGood
      exact hfinish _ hi (by rw [htx]; simp [hws]) (addToCurrent_good _ _ _ _)
    · rw [if_neg hws]
      have htext : outText σ ++ cl = outText σ ++ (if isWs c = true then ' ' :: cl
          else (c :: rest)) := by
        rw [if_neg hws, hcl, trimStart_cons_of_not_ws c rest hws]
      by_cases hcur : σ.currentTokens = []
      · rw [if_neg (by simpa using hcur : ¬ σ.currentTokens ≠ [])]
        obtain ⟨hi, htx⟩ := stepvia_direct σ t cl hGood
        exact hfinish _ hi (by rw [htx, ← htext]) (addToCurrent_good _ _ _ _)
      · rw [if_pos (by simpa using hcur : σ.currentTokens ≠ [])]
        by_cases hp : (cl ≠ [] && cl.all fun ch => ch ∈ PUNCT) = true
        · rw [if_pos hp]
          obtain ⟨hi, htx⟩ := stepvia_direct σ t cl hGood
          exact hfinish _ hi (by rw [htx, ← htext]) (addToCurrent_good _ _ _ _)
        · rw [if_neg hp]
          by_cases hcjk : (containsCjk cl && containsCjk σ.currentText) = true
          · rw [if_pos hcjk]
            obtain ⟨hi, htx⟩ := stepvia_preflush σ t cl false hGood
            refine hfinish _ hi ?_ (addToCurrent_good _ _ _ _)
            rw [htx, ← htext]
            simp
          · rw [if_neg hcjk]
            obtain ⟨hi, htx⟩ := stepvia_direct σ t cl hGood
            exact hfinish _ hi (by rw [htx, ← htext]) (addToCurrent_good _ _ _ _)

theorem foldl_asmStep_spec (ts : List Token) : ∀ σ, asmGood σ →
    outInner (ts.foldl asmStep σ) = outInner σ ++ ts.filter (fun t => t.text ≠ []) ∧
    outText (ts.foldl asmStep σ) = outText σ ++ List.flatten (ts.map normText) ∧
    asmGood (ts.foldl asmStep σ) := by
  induction ts with
  | nil =>
    intro σ h
    exact ⟨by simp, by simp, h⟩
  | cons t ts' ih =>
    intro σ h
    obtain ⟨hi, htx, hg⟩ := asmStep_spec σ t h
    obtain ⟨hi', htx', hg'⟩ := ih (asmStep σ t) hg
    refine ⟨?_, ?_, hg'⟩
    · rw [List.foldl_cons, hi', hi]
      by_cases hne : t.text = []
      · simp [List.filter_cons, hne]
      · simp [List.filter_cons, hne]
    · rw [List.foldl_cons, htx', htx]
      simp [List.append_assoc]

theorem fixFirstWord_inner (ws : List Word) :
    (fixFirstWord ws).map Word.inner = ws.map Word.inner := by
  cases ws with
  | nil => rfl
  | cons w rest =>
    have hfw : fixFirstWord (w :: rest) =
        if w.text.head? = some ' ' then { w with text := trimStart w.text } :: rest
        else w :: rest := rfl
    rw [hfw]
    split <;> simp

theorem trimStart_append_trimStart (a b : Str) :
    trimStart (trimStart a ++ b) = trimStart (a ++ b) := by
  induction a with
  | nil => simp [trimStart]
  | cons c a' ih =>
    by_cases h : isWs c = true
    · rw [show trimStart (c :: a') = trimStart a' from by simp [trimStart, h], ih,
        List.cons_append,
        show trimStart (c :: (a' ++ b)) = trimStart (a' ++ b) from by simp [trimStart, h]]
    · rw [trimStart_cons_of_not_ws c a' h, List.cons_append]

theorem trim_fixFirstWord (ws : List Word) :
    trim (List.flatten ((fixFirstWord ws).map Word.text)) =
      trim (List.flatten (ws.map Word.text)) := by
  cases ws with
  | nil => rfl
  | cons w rest =>
    have hfw : fixFirstWord (w :: rest) =
        if w.text.head? = some ' ' then { w with text := trimStart w.text } :: rest
        else w :: rest := rfl
    rw [hfw]
    split
    · simp only [List.map_cons, List.flatten_cons]
      unfold trim
      rw [trimStart_append_trimStart]
    · rfl

/-- Claim C1 (counterexample): a token whose text carries two leading spaces
(`"  b"`) is collapsed by the word assembler to a single leading space, so
the trimmed concatenation of the emitted word texts differs from the trimmed
concatenation of the raw token texts; the claim as stated is false. -/
theorem tokensToWords_conservation_counterexample :
    ¬ (trim (List.flatten ((tokensToWords [tokA, tokBB]).map Word.text)) =
        trim (List.flatten ([tokA, tokBB].map Token.text))) := by
  decide

/-- Claim C1 (amended): the words emitted by `tokensToWords` cover every
token *with nonempty text* exactly once, in the original order (tokens with
empty text are skipped); and the trimmed concatenation of the emitted word
texts equals the trimmed concatenation of the token texts *after collapsing
each token's leading whitespace run to a single space* (`normText`). -/
theorem tokensToWords_conservation_amended (ts : List Token) :
    List.flatten ((tokensToWords ts).map Word.inner) =
      ts.filter (fun t => t.text ≠ []) ∧
    trim (List.flatten ((tokensToWords ts).map Word.text)) =
      trim (List.flatten (ts.map normText)) := by
  have hinit : asmGood asmInit := fun _ => ⟨rfl, rfl⟩
  obtain ⟨hi, htx, hg⟩ := foldl_asmStep_spec ts asmInit hinit
  constructor
  · unfold tokensToWords
    have h1 : List.flatten (((flushWord (ts.foldl asmStep asmInit)).words).map Word.inner) =
        outInner (flushWord (ts.foldl asmStep asmInit)) := by
      unfold outInner
      rw [flushWord_currentTokens, List.append_nil]
    rw [congrArg List.flatten (fixFirstWord_inner _), h1, flushWord_outInner, hi]
    simp [outInner, asmInit]
  · unfold tokensToWords
    rw [trim_fixFirstWord]
    have hgf := flushWord_good _ hg
    obtain ⟨hct, hpf⟩ := hgf (flushWord_currentTokens _)
    have h1 : List.flatten (((flushWord (ts.foldl asmStep asmInit)).words).map Word.text) =
        outText (flushWord (ts.foldl asmStep asmInit)) := by
      unfold outText
      rw [hct, hpf]
      simp
    rw [h1, flushWord_outText, htx]
    simp [outText, asmInit]

/-! ## Claim C10: line count of the token-aware wrapper -/

/-- Claim C10: with no preferred line-split delimiters configured, the
token-aware wrapper returns at most 2 lines whatever `max_lines` is (and so
does the naive wrapper): more than 2 lines can only come from the
delimiter-packing path. -/
theorem tokenAware_two_lines (ts : List Word) (text : Str) (maxCpl maxLines : ℕ) :
    (wrapTwoLinesTokenAware ts text maxCpl maxLines []).length ≤ 2 ∧
    (wrapTwoLinesNaive text maxCpl maxLines []).length ≤ 2 := by
  constructor
  · unfold wrapTwoLinesTokenAware
    dsimp only
    rw [if_neg (by simp : ¬ ([] : List Str) ≠ [])]
    dsimp only
    split
    · simp
    · split
      · simp
      · split
        · simp
        · split
          · simp
          · simp
  · unfold wrapTwoLinesNaive
    dsimp only
    rw [if_neg (by simp : ¬ ([] : List Str) ≠ [])]
    dsimp only
    split
    · simp
    · split
      · simp
      · split
        · split <;> simp
        · split
          · split <;> simp
          · simp

/-! ## Claim C3: the 100-character no-boundary scenario -/

/-- Claim C3 (counterexample): rendering a segment that carries its words
(as every pipeline segment does) routes through the token-aware wrapper,
which performs no hard character truncation: the 100-character run comes
back as a single 100-character line, not as 2 lines of at most 42
characters. -/
theorem wrap_hard_truncation_counterexample :
    ¬ (∀ e ∈ renderSegments [seg100] defaultConfig,
        e.lines.length = 2 ∧ ∀ l ∈ e.lines, l.length ≤ 42) := by
  decide

/-- Claim C3 (amended): the hard character-truncation fallback lives in the
naive wrapper (used only for segments without a word list): on the
100-character space-free run it produces exactly 2 lines of 42 characters
with the remainder dropped; the token-aware wrapper instead returns the
whole run as a single over-long line, which is what rendering a
word-carrying segment produces. -/
theorem wrap_hard_truncation_amended :
    wrapTwoLinesNaive str100 42 2 [] = [List.replicate 42 'a', List.replicate 42 'a'] ∧
    wrapTwoLinesTokenAware [word100] str100 42 2 [] = [str100] ∧
    (renderSegments [seg100] defaultConfig).map SubtitleEntry.lines = [[str100]] := by
  decide

/-! ## Claim C4: error paths of `srt` -/

/-- Claim C4: `srt` fails with the input error when no tokens are found
after exhausting the recognized nested container keys (in particular for an
empty top-level token list), and with the empty-result error when
segmentation yields zero nonempty segments; in both cases the result is an
error carrying no output content, mirroring that both throws happen before
`writeSrtFile` is reached. -/
theorem srt_error_paths (cfg : SubtitleConfig) :
    (∀ tr : JVal, (topTokens tr).getD [] = [] → collectTokens tr true = [] →
      srtModel tr cfg = .error noTokensMsg) ∧
    (∀ (tr : JVal) (toks : List Token), extractTokens tr = .ok toks →
      tokensToSubtitleSegments toks cfg = [] →
      srtModel tr cfg = .error noSegmentsMsg) := by
  constructor
  · intro tr htop hcol
    unfold srtModel extractTokens
    rcases hT : topTokens tr with _ | l
    · dsimp only
      rw [hcol]
      rfl
    · cases l with
      | nil =>
        dsimp only
        rw [hcol]
        rfl
      | cons t rest =>
        rw [hT] at htop
        simp at htop
  · intro tr toks hex hseg
    unfold srtModel
    rw [hex]
    dsimp only
    rw [if_pos hseg]

/-- Claim C4 (witness): the empty token list hits the input error, and an
all-whitespace token hits the empty-result error. -/
theorem srt_error_paths_witness :
    srtModel trEmptyTokens defaultConfig = .error noTokensMsg ∧
    srtModel trWhitespace defaultConfig = .error noSegmentsMsg :=
  ⟨(srt_error_paths defaultConfig).1 trEmptyTokens (by decide) (by decide),
    (srt_error_paths defaultConfig).2 trWhitespace
      [⟨[' '], some 0, some 5, none⟩] rfl (by decide)⟩

/-! ## Claim C9: cue renderer -/

theorem renderGo_index (cfg : SubtitleConfig) :
    ∀ (l : List Seg) (i j : ℕ) (e : SubtitleEntry),
      (renderGo cfg i l).get? j = some e → e.index = i + j + 1 := by
  intro l
  induction l with
  | nil =>
    intro i j e h
    simp [renderGo] at h
  | cons s rest ih =>
    intro i j e h
    cases j with
    | zero =>
      simp only [renderGo, List.get?] at h
      have he : renderOne cfg i s = e := Option.some_injective _ h
      rw [← he]
      rfl
    | succ j' =>
      have := ih (i + 1) j' e (by simpa [renderGo] using h)
      omega

theorem formatTimestamp_spec (ms : ℚ) :
    ∃ h m s r : ℕ, r < 1000 ∧ s < 60 ∧ m < 60 ∧
      formatTimestamp ms =
        padStart (natDigits h) 2 '0' ++ [':'] ++ padStart (natDigits m) 2 '0' ++ [':'] ++
          padStart (natDigits s) 2 '0' ++ [','] ++ padStart (natDigits r) 3 '0' ∧
      ((h * 3600000 + m * 60000 + s * 1000 + r : ℕ) : ℤ) = max 0 (Rat.floor ms) := by
  refine ⟨(((max 0 (Rat.floor ms)).toNat / 1000) / 60) / 60,
    (((max 0 (Rat.floor ms)).toNat / 1000) / 60) % 60,
    ((max 0 (Rat.floor ms)).toNat / 1000) % 60,
    (max 0 (Rat.floor ms)).toNat % 1000, ?_, ?_, ?_, rfl, ?_⟩
  · exact Nat.mod_lt _ (by norm_num)
  · exact Nat.mod_lt _ (by norm_num)
  · exact Nat.mod_lt _ (by norm_num)
  · have hn : (((max 0 (Rat.floor ms)).toNat : ℤ)) = max 0 (Rat.floor ms) :=
      Int.toNat_of_nonneg (le_max_left 0 (Rat.floor ms))
    rw [← hn]
    push_cast
    omega

/-- Claim C9: `renderSegments` gives every entry the 1-based index equal to
its position plus one, and `formatTimestamp` produces zero-padded
`HH:MM:SS,mmm` digits whose value is the millisecond input clamped to 0 and
floored. -/
theorem renderSegments_index_timestamp :
    (∀ (segments : List Seg) (cfg : SubtitleConfig) (j : ℕ) (e : SubtitleEntry),
      (renderSegments segments cfg).get? j = some e → e.index = j + 1) ∧
    (∀ ms : ℚ, ∃ h m s r : ℕ, r < 1000 ∧ s < 60 ∧ m < 60 ∧
      formatTimestamp ms =
        padStart (natDigits h) 2 '0' ++ [':'] ++ padStart (natDigits m) 2 '0' ++ [':'] ++
          padStart (natDigits s) 2 '0' ++ [','] ++ padStart (natDigits r) 3 '0' ∧
      ((h * 3600000 + m * 60000 + s * 1000 + r : ℕ) : ℤ) = max 0 (Rat.floor ms)) := by
  constructor
  · intro segs cfg j e h
    have := renderGo_index cfg segs 0 j e h
    omega
  · exact formatTimestamp_spec

/-- Claim C9 (witness). -/
theorem renderSegments_index_timestamp_witness :
    (renderOne defaultConfig 0 segShort).index = 0 + 1 ∧
    (∃ h m s r : ℕ, r < 1000 ∧ s < 60 ∧ m < 60 ∧
      formatTimestamp (-5 : ℚ) =
        padStart (natDigits h) 2 '0' ++ [':'] ++ padStart (natDigits m) 2 '0' ++ [':'] ++
          padStart (natDigits s) 2 '0' ++ [','] ++ padStart (natDigits r) 3 '0' ∧
      ((h * 3600000 + m * 60000 + s * 1000 + r : ℕ) : ℤ) = max 0 (Rat.floor (-5 : ℚ))) :=
  ⟨renderSegments_index_timestamp.1 [segShort] defaultConfig 0
      (renderOne defaultConfig 0 segShort) (by decide),
    renderSegments_index_timestamp.2 (-5 : ℚ)⟩

end SonioxSRT
